import Mathlib

/-!
Verification development for the CPU-scheduling simulator in
src/cpusimulator.py.

Modelling choices (shallow embedding):
* Python integers are `Int` (process ids are `Nat`, as produced by the
  workload source and required by the spec).
* The mutable per-run record set `self.processes` is the `procs` list of a
  state structure; ready queues store process ids, and a record is looked
  up / rewritten in `procs` by its id.  Python membership tests such as
  `process not in ready_queue` use the dataclass structural equality, which
  coincides with id-based membership whenever the ids of the workload are
  distinct; every theorem below that needs this assumes distinct ids.
* Each policy's `while` loop is embedded with an explicit fuel parameter
  (structural recursion); the loop body is a pure step function on states.
* Python `list.sort(key=...)` is a stable sort; it is embedded as a stable
  insertion sort by the same key (stable sorts by a fixed key are
  extensionally unique, so this is faithful).
* `statistics.mean` and `/` on Python numbers are embedded over `ℚ`
  (exact values; the Python floats are the rounded images of these).
* A raised exception is `none` / a `crashed` flag: `get_metrics` returns
  `none` exactly when Python raises ZeroDivisionError (a completed record
  exists but the maximal completion time is 0), and the multilevel-queue
  state records in `crashed` that Python raised IndexError while admitting
  a process (queue index `min(priority // 4, 2)` outside the Python list
  index range `-3 .. 2` of the three-queue list).
* Python floor division `//` is `Int.fdiv`.
-/

/-- Embeds the dataclass `Process` of cpusimulator.py. -/
structure Process where
  pid : Nat
  arrival_time : Int
  burst_time : Int
  priority : Int
  remaining_time : Int
  start_time : Option Int := none
  completion_time : Option Int := none
deriving DecidableEq, Repr

/-- Embeds the property `Process.turnaround_time`. -/
def turnaround_time (p : Process) : Option Int :=
  match p.completion_time with
  | none => none
  | some c => some (c - p.arrival_time)

/-- Embeds the property `Process.waiting_time`. -/
def waiting_time (p : Process) : Option Int :=
  match turnaround_time p with
  | none => none
  | some tt => some (tt - p.burst_time)

/-- The metrics dictionary returned by `Scheduler.get_metrics`. -/
structure Metrics where
  avg_turnaround_time : ℚ
  avg_waiting_time : ℚ
  throughput : ℚ
  cpu_utilization : ℚ
deriving DecidableEq, Repr

/-- Embeds `max(p.completion_time for p in completed_processes)`
(0 on an empty list, which `get_metrics` never queries). -/
def maxCompletion (completed : List Process) : Int :=
  ((completed.filterMap (fun p => p.completion_time)).max?).getD 0

/-- Embeds `Scheduler.get_metrics`.  Returns `none` exactly when the Python
code raises ZeroDivisionError: some record is completed but the maximal
completion time is 0. -/
def get_metrics (procs : List Process) : Option Metrics :=
  let completed := procs.filter (fun p => p.completion_time.isSome)
  if completed.isEmpty then
    some { avg_turnaround_time := 0, avg_waiting_time := 0,
           throughput := 0, cpu_utilization := 0 }
  else
    let maxC := maxCompletion completed
    if maxC = 0 then none
    else some {
      avg_turnaround_time :=
        ((completed.filterMap turnaround_time).sum : ℚ) / (completed.length : ℚ),
      avg_waiting_time :=
        ((completed.filterMap waiting_time).sum : ℚ) / (completed.length : ℚ),
      throughput := (completed.length : ℚ) / (maxC : ℚ),
      cpu_utilization :=
        ((completed.map (fun p => p.burst_time)).sum : ℚ) / (maxC : ℚ) * 100 }

/-- Embeds the record cloning done by `Scheduler.reset_processes` for one
process: a fresh record with `remaining_time = burst_time` and unset
timestamps. -/
def cloneP (p : Process) : Process :=
  { pid := p.pid, arrival_time := p.arrival_time, burst_time := p.burst_time,
    priority := p.priority, remaining_time := p.burst_time }

/-- Embeds the `Scheduler` object: the immutable original list and the
current per-run record list. -/
structure Scheduler where
  original_processes : List Process
  processes : List Process
deriving DecidableEq, Repr

/-- Embeds `Scheduler.reset_processes`. -/
def reset_processes (s : Scheduler) : Scheduler :=
  { s with processes := s.original_processes.map cloneP }

/-- Embeds `Scheduler.__init__`, which stores the originals and resets. -/
def scheduler_init (ps : List Process) : Scheduler :=
  reset_processes { original_processes := ps, processes := [] }

/-- The ids of a record list. -/
def pidsOf (ps : List Process) : List Nat := ps.map (fun p => p.pid)

/-- Looks up the record with the given id (the Python code holds a direct
object reference; with distinct ids this lookup is that reference). -/
def findP (procs : List Process) (pid : Nat) : Process :=
  match procs.find? (fun p => p.pid == pid) with
  | some p => p
  | none => { pid := 0, arrival_time := 0, burst_time := 0, priority := 0,
              remaining_time := 0 }

/-- Rewrites the record with the given id (the Python code mutates the
object in place inside `self.processes`). -/
def setP (procs : List Process) (pid : Nat) (newP : Process) : List Process :=
  procs.map (fun q => if q.pid = pid then newP else q)

/-- State of one single-ready-queue policy run: the record list
`self.processes`, the ready queue (ids) and `current_time`. -/
structure SimState where
  procs : List Process
  queue : List Nat
  time : Int
deriving DecidableEq, Repr

/-- Embeds the shared admission scan
`for process in self.processes: if process.arrival_time <= current_time and
process not in completed_processes and process not in ready_queue:
ready_queue.append(process)`. -/
def admitLoop (t : Int) : List Process → List Nat → List Nat
  | [], q => q
  | p :: ps, q =>
    if p.arrival_time ≤ t ∧ p.completion_time = none ∧ p.pid ∉ q then
      admitLoop t ps (q ++ [p.pid])
    else
      admitLoop t ps q

/-- Admission applied to a simulation state. -/
def admitArrivals (s : SimState) : SimState :=
  { s with queue := admitLoop s.time s.procs s.queue }

/-- Stable insertion used to embed the stable Python `list.sort(key=...)`:
an element is inserted before the first element with a strictly larger key,
hence after all earlier elements with an equal key. -/
def insertK (key : Nat → Int) (x : Nat) : List Nat → List Nat
  | [] => [x]
  | y :: ys => if key x ≤ key y then x :: y :: ys else y :: insertK key x ys

/-- Stable sort by key, embedding `ready_queue.sort(key=...)`. -/
def isortKey (key : Nat → Int) : List Nat → List Nat
  | [] => []
  | x :: xs => insertK key x (isortKey key xs)

/-- Sort the ready queue of ids by a key on the underlying records. -/
def sortQ (k : Process → Int) (procs : List Process) (q : List Nat) :
    List Nat :=
  isortKey (fun pid => k (findP procs pid)) q

/-- The earliest element of the list attaining the minimal key. -/
def firstMinBy (key : Nat → Int) : List Nat → Option Nat
  | [] => none
  | x :: xs =>
    match firstMinBy key xs with
    | none => some x
    | some y => if key x ≤ key y then some x else some y

/-- The idle tick `current_time += 1; continue` taken when the ready
structure is empty. -/
def idleTick (s1 : SimState) : SimState := { s1 with time := s1.time + 1 }

/-- Embeds the shared execution-slice bookkeeping of the preemptive,
round-robin and multilevel loop bodies: set the start time if unset, run
the dispatched process for `e` ticks
(`process.remaining_time -= e; current_time += e`) and mark it completed
exactly when its remaining time reaches 0.  Returns the rewritten record
list, the new clock, and whether the process completed. -/
def execProc (procs : List Process) (t : Int) (pid : Nat) (e : Int) :
    List Process × Int × Bool :=
  let p := findP procs pid
  let st := if p.start_time = none then some t else p.start_time
  let r2 := p.remaining_time - e
  let t2 := t + e
  if r2 = 0 then
    (setP procs pid
       { p with start_time := st, remaining_time := r2,
                completion_time := some t2 }, t2, true)
  else
    (setP procs pid
       { p with start_time := st, remaining_time := r2 }, t2, false)

/-- Embeds the non-preemptive dispatch: the popped head is run to
completion (`current_time += remaining_time; remaining_time = 0;
completion_time = current_time`), with no branch in the source. -/
def runToCompletion (s1 : SimState) (pid : Nat) (rest : List Nat) :
    SimState :=
  let p := findP s1.procs pid
  let st := if p.start_time = none then some s1.time else p.start_time
  let t2 := s1.time + p.remaining_time
  { procs := setP s1.procs pid
      { p with start_time := st, remaining_time := 0,
               completion_time := some t2 },
    queue := rest, time := t2 }

/-- The ready queue a non-preemptive policy dispatches from: unsorted for
`fcfs`, sorted by the given key otherwise. -/
def npQueue (sk : Option (Process → Int)) (s1 : SimState) : List Nat :=
  match sk with
  | none => s1.queue
  | some k => sortQ k s1.procs s1.queue

/-- One iteration of the non-preemptive loop bodies (`fcfs` with no sort
key, `sjf_nonpreemptive` with key `remaining_time`,
`priority_nonpreemptive` with key `priority`): admission, idle-tick when the
queue is empty, otherwise sort (when a key is given), pop the head, set the
start time if unset, and run the process to completion, advancing the clock
by its remaining time. -/
def stepNP (sk : Option (Process → Int)) (s : SimState) : SimState :=
  let s1 := admitArrivals s
  match npQueue sk s1 with
  | [] => idleTick s1
  | pid :: rest => runToCompletion s1 pid rest

/-- One iteration of the preemptive loop bodies (`sjf_preemptive` with key
`remaining_time`, `priority_preemptive` with key `priority`): admission,
idle-tick when empty, otherwise sort, peek the head, run it for one tick,
and pop it exactly when its remaining time reaches 0 (otherwise it stays at
the head of the sorted queue). -/
def stepP (k : Process → Int) (s : SimState) : SimState :=
  let s1 := admitArrivals s
  match sortQ k s1.procs s1.queue with
  | [] => idleTick s1
  | pid :: rest =>
    match execProc s1.procs s1.time pid 1 with
    | (procs2, t2, fin) =>
      { procs := procs2, queue := if fin then rest else pid :: rest,
        time := t2 }

/-- One iteration of the `round_robin` loop body: admission, idle-tick when
empty, otherwise pop the head, run it for `min(quantum, remaining_time)`
ticks, and either complete it or append it to the back of the queue. -/
def stepRR (quantum : Int) (s : SimState) : SimState :=
  let s1 := admitArrivals s
  match s1.queue with
  | [] => idleTick s1
  | pid :: rest =>
    match execProc s1.procs s1.time pid
        (min quantum (findP s1.procs pid).remaining_time) with
    | (procs2, t2, fin) =>
      { procs := procs2, queue := if fin then rest else rest ++ [pid],
        time := t2 }

/-- Embeds the loop guard `while len(completed_processes) <
len(self.processes)` (with distinct ids the accumulated completed list has
one entry per record whose completion time is set). -/
def doneS (s : SimState) : Bool :=
  decide (s.procs.length ≤ s.procs.countP (fun p => p.completion_time.isSome))

/-- Fuelled iteration of a single-queue policy loop. -/
def runSim (step : SimState → SimState) : Nat → SimState → SimState
  | 0, s => s
  | Nat.succ f, s => if doneS s then s else runSim step f (step s)

/-- Fresh run state over a workload: records cloned by
`reset_processes`, empty ready queue, clock 0. -/
def initState (ps : List Process) : SimState :=
  { procs := ps.map cloneP, queue := [], time := 0 }

/-- The `fcfs` run on a freshly reset record list. -/
def fcfs_run (fuel : Nat) (ps : List Process) : SimState :=
  runSim (stepNP none) fuel (initState ps)

/-- The `sjf_nonpreemptive` run (sorts the ready queue by remaining time). -/
def sjf_nonpreemptive_run (fuel : Nat) (ps : List Process) : SimState :=
  runSim (stepNP (some (fun p => p.remaining_time))) fuel (initState ps)

/-- The `sjf_preemptive` run (re-sorts by remaining time every tick). -/
def sjf_preemptive_run (fuel : Nat) (ps : List Process) : SimState :=
  runSim (stepP (fun p => p.remaining_time)) fuel (initState ps)

/-- The `round_robin` run. -/
def round_robin_run (quantum : Int) (fuel : Nat) (ps : List Process) :
    SimState :=
  runSim (stepRR quantum) fuel (initState ps)

/-- The `priority_nonpreemptive` run (sorts by priority, lower wins). -/
def priority_nonpreemptive_run (fuel : Nat) (ps : List Process) : SimState :=
  runSim (stepNP (some (fun p => p.priority))) fuel (initState ps)

/-- The `priority_preemptive` run (re-sorts by priority every tick). -/
def priority_preemptive_run (fuel : Nat) (ps : List Process) : SimState :=
  runSim (stepP (fun p => p.priority)) fuel (initState ps)

/-- State of a `multilevel_queue` run: records, the three tier queues
(high, medium, low), the clock, and whether the Python code has raised
IndexError while admitting (queue index outside `-3 .. 2`). -/
structure MlqState where
  procs : List Process
  q0 : List Nat
  q1 : List Nat
  q2 : List Nat
  time : Int
  crashed : Bool
deriving DecidableEq, Repr

/-- Embeds `queues[min(process.priority // 4, 2)]` as a Python list index
into the three-queue list: a nonnegative index must be below 3 (here it
always is, being capped at 2), an index in `-3 .. -1` wraps around, and any
smaller index raises IndexError (`none`). -/
def pyTier (priority : Int) : Option Nat :=
  let i : Int := min (Int.fdiv priority 4) 2
  if 0 ≤ i then some i.toNat
  else if -3 ≤ i then some (i + 3).toNat
  else none

/-- Embeds the `multilevel_queue` admission scan: each not-yet-queued,
arrived, incomplete record is appended to the queue selected by `pyTier`;
`none` embeds the raised IndexError, which aborts the scan. -/
def admitM (t : Int) :
    List Process → List Nat → List Nat → List Nat →
    Option (List Nat × List Nat × List Nat)
  | [], a, b, c => some (a, b, c)
  | p :: ps, a, b, c =>
    if p.arrival_time ≤ t ∧ p.completion_time = none ∧
        p.pid ∉ a ∧ p.pid ∉ b ∧ p.pid ∉ c then
      match pyTier p.priority with
      | some 0 => admitM t ps (a ++ [p.pid]) b c
      | some 1 => admitM t ps a (b ++ [p.pid]) c
      | some (Nat.succ (Nat.succ _)) => admitM t ps a b (c ++ [p.pid])
      | none => none
    else admitM t ps a b c

/-- One iteration of the `multilevel_queue` loop body: admission into the three
tier queues (recording a raised IndexError in `crashed`), idle-tick when
all queues are empty, otherwise pop the head of the first non-empty queue;
tier 0 runs for its full remaining time, tiers 1 and 2 for
`min(quantum, remaining_time)` ticks; the shared slice bookkeeping
(`execProc`) completes the process or re-appends it to the back of the same
tier queue. -/
def stepM (quantum : Int) (s : MlqState) : MlqState :=
  if s.crashed then s else
  match admitM s.time s.procs s.q0 s.q1 s.q2 with
  | none => { s with crashed := true }
  | some (a, b, c) =>
    match a with
    | pid :: rest =>
      match execProc s.procs s.time pid (findP s.procs pid).remaining_time with
      | (procs2, t2, fin) =>
        { s with
          procs := procs2,
          q0 := if fin then rest else rest ++ [pid], q1 := b, q2 := c,
          time := t2 }
    | [] =>
      match b with
      | pid :: rest =>
        match execProc s.procs s.time pid
            (min quantum (findP s.procs pid).remaining_time) with
        | (procs2, t2, fin) =>
          { s with
            procs := procs2,
            q0 := a, q1 := if fin then rest else rest ++ [pid], q2 := c,
            time := t2 }
      | [] =>
        match c with
        | pid :: rest =>
          match execProc s.procs s.time pid
              (min quantum (findP s.procs pid).remaining_time) with
          | (procs2, t2, fin) =>
            { s with
              procs := procs2,
              q0 := a, q1 := b, q2 := if fin then rest else rest ++ [pid],
              time := t2 }
        | [] => { s with q0 := a, q1 := b, q2 := c, time := s.time + 1 }

/-- Loop guard of `multilevel_queue`, as `doneS`. -/
def doneM (s : MlqState) : Bool :=
  decide (s.procs.length ≤ s.procs.countP (fun p => p.completion_time.isSome))

/-- Fuelled iteration of the `multilevel_queue` loop; a raised IndexError
(`crashed`) aborts the run. -/
def runM (quantum : Int) : Nat → MlqState → MlqState
  | 0, s => s
  | Nat.succ f, s =>
    if doneM s || s.crashed then s else runM quantum f (stepM quantum s)

/-- Fresh `multilevel_queue` run state over a workload. -/
def initM (ps : List Process) : MlqState :=
  { procs := ps.map cloneP, q0 := [], q1 := [], q2 := [],
    time := 0, crashed := false }

/-- The `multilevel_queue` run on a freshly reset record list. -/
def multilevel_queue_run (quantum : Int) (fuel : Nat) (ps : List Process) :
    MlqState :=
  runM quantum fuel (initM ps)

/-- Embeds the method `Scheduler.fcfs`: reset, run the loop, return the
metrics; the final records stay in the scheduler. -/
def fcfs (fuel : Nat) (sch : Scheduler) : Option Metrics × Scheduler :=
  let fin := fcfs_run fuel sch.original_processes
  (get_metrics fin.procs,
   { original_processes := sch.original_processes, processes := fin.procs })

/-- Embeds the method `Scheduler.sjf_nonpreemptive`. -/
def sjf_nonpreemptive (fuel : Nat) (sch : Scheduler) :
    Option Metrics × Scheduler :=
  let fin := sjf_nonpreemptive_run fuel sch.original_processes
  (get_metrics fin.procs,
   { original_processes := sch.original_processes, processes := fin.procs })

/-- Embeds the method `Scheduler.sjf_preemptive`. -/
def sjf_preemptive (fuel : Nat) (sch : Scheduler) :
    Option Metrics × Scheduler :=
  let fin := sjf_preemptive_run fuel sch.original_processes
  (get_metrics fin.procs,
   { original_processes := sch.original_processes, processes := fin.procs })

/-- Embeds the method `Scheduler.round_robin`. -/
def round_robin (quantum : Int) (fuel : Nat) (sch : Scheduler) :
    Option Metrics × Scheduler :=
  let fin := round_robin_run quantum fuel sch.original_processes
  (get_metrics fin.procs,
   { original_processes := sch.original_processes, processes := fin.procs })

/-- Embeds the method `Scheduler.priority_nonpreemptive`. -/
def priority_nonpreemptive (fuel : Nat) (sch : Scheduler) :
    Option Metrics × Scheduler :=
  let fin := priority_nonpreemptive_run fuel sch.original_processes
  (get_metrics fin.procs,
   { original_processes := sch.original_processes, processes := fin.procs })

/-- Embeds the method `Scheduler.priority_preemptive`. -/
def priority_preemptive (fuel : Nat) (sch : Scheduler) :
    Option Metrics × Scheduler :=
  let fin := priority_preemptive_run fuel sch.original_processes
  (get_metrics fin.procs,
   { original_processes := sch.original_processes, processes := fin.procs })

/-- Embeds the method `Scheduler.multilevel_queue`; a raised IndexError
propagates (no metrics value). -/
def multilevel_queue (quantum : Int) (fuel : Nat) (sch : Scheduler) :
    Option Metrics × Scheduler :=
  let fin := multilevel_queue_run quantum fuel sch.original_processes
  ((if fin.crashed then none else get_metrics fin.procs),
   { original_processes := sch.original_processes, processes := fin.procs })

/-- The record lists produced by one run of each of the seven policy
methods over the same workload (FCFS, SJF non-preemptive, SJF preemptive,
Round Robin, Priority non-preemptive, Priority preemptive, Multilevel
Queue). -/
def allPolicyRuns (quantum : Int) (fuel : Nat) (ps : List Process) :
    List (List Process) :=
  [ (fcfs_run fuel ps).procs,
    (sjf_nonpreemptive_run fuel ps).procs,
    (sjf_preemptive_run fuel ps).procs,
    (round_robin_run quantum fuel ps).procs,
    (priority_nonpreemptive_run fuel ps).procs,
    (priority_preemptive_run fuel ps).procs,
    (multilevel_queue_run quantum fuel ps).procs ]

/-! ### Small facts about the runners -/

lemma runM_of_crashed (quantum : Int) (f : Nat) (s : MlqState)
    (h : s.crashed = true) : runM quantum f s = s := by
  cases f with
  | zero => rfl
  | succ f => simp [runM, h]

/-! ### C8: degenerate metrics -/

/-- C8: `get_metrics` considers only records with a set completion time;
when none is completed (in particular on an empty workload) it raises no
error (the result is a `some`) and all four metrics are 0. -/
theorem c8_no_completed_zero_metrics (ps : List Process)
    (h : ∀ p ∈ ps, p.completion_time = none) :
    get_metrics ps =
      some { avg_turnaround_time := 0, avg_waiting_time := 0,
             throughput := 0, cpu_utilization := 0 } := by
  have hfil : ps.filter (fun p => p.completion_time.isSome) = [] := by
    rw [List.filter_eq_nil_iff]
    intro p hp
    simp [h p hp]
  unfold get_metrics
  rw [hfil]
  rfl

/-- Witness for C8 at the empty workload. -/
theorem c8_witness :
    (∀ p ∈ ([] : List Process), p.completion_time = none) ∧
    get_metrics [] =
      some { avg_turnaround_time := 0, avg_waiting_time := 0,
             throughput := 0, cpu_utilization := 0 } :=
  ⟨by simp, c8_no_completed_zero_metrics [] (by simp)⟩

/-! ### C9: no state carry-over between runs -/

/-- C9: every policy method resets the record set from the untouched
original descriptors, so running the same policy twice in a row on the same
scheduler (the second run starting from the scheduler state left by the
first) returns identical metrics both times. -/
theorem c9_policy_runs_idempotent (quantum : Int) (fuel : Nat)
    (sch : Scheduler) :
    (fcfs fuel ((fcfs fuel sch).2)).1 = (fcfs fuel sch).1 ∧
    (sjf_nonpreemptive fuel ((sjf_nonpreemptive fuel sch).2)).1 =
      (sjf_nonpreemptive fuel sch).1 ∧
    (sjf_preemptive fuel ((sjf_preemptive fuel sch).2)).1 =
      (sjf_preemptive fuel sch).1 ∧
    (round_robin quantum fuel ((round_robin quantum fuel sch).2)).1 =
      (round_robin quantum fuel sch).1 ∧
    (priority_nonpreemptive fuel ((priority_nonpreemptive fuel sch).2)).1 =
      (priority_nonpreemptive fuel sch).1 ∧
    (priority_preemptive fuel ((priority_preemptive fuel sch).2)).1 =
      (priority_preemptive fuel sch).1 ∧
    (multilevel_queue quantum fuel ((multilevel_queue quantum fuel sch).2)).1 =
      (multilevel_queue quantum fuel sch).1 :=
  ⟨rfl, rfl, rfl, rfl, rfl, rfl, rfl⟩

/-! ### C1: descriptors with burst_time ≤ 0 are not rejected -/

/-- C1 (code defect): no InvalidDescriptor validation exists.  On the
workload with a single zero-burst descriptor, constructing the scheduler
and calling `fcfs` runs the simulation (the record is dispatched and marked
completed at time 0) instead of signalling a validation failure; the
metrics computation then divides by the maximal completion time 0, which in
Python raises ZeroDivisionError (`none` here).  Moreover `sjf_preemptive`
on the same workload never terminates: its loop guard is false after every
number of iterations, because the zero-burst record's remaining time is
decremented from 0 and can never come back to 0. -/
theorem c1_invalid_burst_runs_instead_of_error :
    (fcfs 2 (scheduler_init
        [{ pid := 0, arrival_time := 0, burst_time := 0, priority := 0,
           remaining_time := 0 }])).2.processes =
      [{ pid := 0, arrival_time := 0, burst_time := 0, priority := 0,
         remaining_time := 0, start_time := some 0,
         completion_time := some 0 }] ∧
    (fcfs 2 (scheduler_init
        [{ pid := 0, arrival_time := 0, burst_time := 0, priority := 0,
           remaining_time := 0 }])).1 = none ∧
    ∀ fuel : Nat,
      doneS (sjf_preemptive_run fuel
        [{ pid := 0, arrival_time := 0, burst_time := 0, priority := 0,
           remaining_time := 0 }]) = false := by
  refine ⟨by decide, by decide, ?_⟩
  intro fuel
  cases fuel with
  | zero => decide
  | succ f =>
    have key :
        ∀ g : Nat, ∀ r t : Int, ∀ st : Option Int, r ≤ 0 →
          doneS (runSim (stepP (fun p => p.remaining_time)) g
            { procs := [{ pid := 0, arrival_time := 0, burst_time := 0,
                          priority := 0, remaining_time := r,
                          start_time := st, completion_time := none }],
              queue := [0], time := t }) = false := by
      intro g
      induction g with
      | zero => intro r t st hr; rfl
      | succ g ih =>
        intro r t st hr
        rw [runSim]
        have hd : doneS
            { procs := [{ pid := 0, arrival_time := 0, burst_time := 0,
                          priority := 0, remaining_time := r,
                          start_time := st, completion_time := none }],
              queue := [0], time := t } = false := rfl
        rw [hd]
        simp only [Bool.false_eq_true, if_false]
        have hstep : stepP (fun p => p.remaining_time)
            { procs := [{ pid := 0, arrival_time := 0, burst_time := 0,
                          priority := 0, remaining_time := r,
                          start_time := st, completion_time := none }],
              queue := [0], time := t } =
            { procs := [{ pid := 0, arrival_time := 0, burst_time := 0,
                          priority := 0, remaining_time := r - 1,
                          start_time := if st = none then some t else st,
                          completion_time := none }],
              queue := [0], time := t + 1 } := by
          have hr1 : ¬ (r - 1 = 0) := by omega
          simp [stepP, admitArrivals, admitLoop, sortQ, isortKey, insertK, findP,
                setP, execProc, idleTick, hr1]
        rw [hstep]
        exact ih (r - 1) (t + 1) _ (by omega)
    rw [sjf_preemptive_run, runSim]
    have hd0 : doneS (initState
        [{ pid := 0, arrival_time := 0, burst_time := 0, priority := 0,
           remaining_time := 0 }]) = false := rfl
    rw [hd0]
    simp only [Bool.false_eq_true, if_false]
    have hstep0 : stepP (fun p => p.remaining_time) (initState
        [{ pid := 0, arrival_time := 0, burst_time := 0, priority := 0,
           remaining_time := 0 }]) =
        { procs := [{ pid := 0, arrival_time := 0, burst_time := 0,
                      priority := 0, remaining_time := -1,
                      start_time := some 0, completion_time := none }],
          queue := [0], time := 1 } := by decide
    rw [hstep0]
    exact key f (-1) 1 (some 0) (by omega)

/-! ### C2: a policy run that never completes its processes -/

/-- C2 (code defect): `multilevel_queue` maps a process to queue index
`min(priority // 4, 2)`; for the workload with the single descriptor
pid 0, arrival 0, burst 1, priority −13 — which satisfies every validity
constraint of the claim (unique pids, arrival ≥ 0, burst > 0) — that index
is −4, and `queues[-4]` raises IndexError on the very first admission scan,
so the run aborts with no process completed, however much fuel the loop is
given. -/
theorem c2_multilevel_queue_crashes_on_valid_workload :
    ∀ fuel : Nat,
      (multilevel_queue_run 2 (fuel + 1)
        [{ pid := 0, arrival_time := 0, burst_time := 1, priority := -13,
           remaining_time := 0 }]).crashed = true ∧
      (multilevel_queue_run 2 (fuel + 1)
        [{ pid := 0, arrival_time := 0, burst_time := 1, priority := -13,
           remaining_time := 0 }]).procs.countP
        (fun p => p.completion_time.isSome) = 0 := by
  intro fuel
  have hstep : stepM 2 (initM
      [{ pid := 0, arrival_time := 0, burst_time := 1, priority := -13,
         remaining_time := 0 }]) =
      { procs := [{ pid := 0, arrival_time := 0, burst_time := 1,
                    priority := -13, remaining_time := 1,
                    start_time := none, completion_time := none }],
        q0 := [], q1 := [], q2 := [], time := 0, crashed := true } := by
    decide
  rw [multilevel_queue_run, runM]
  have hd : (doneM (initM
      [{ pid := 0, arrival_time := 0, burst_time := 1, priority := -13,
         remaining_time := 0 }]) ||
      (initM [{ pid := 0, arrival_time := 0, burst_time := 1,
                priority := -13, remaining_time := 0 }]).crashed) = false := by
    decide
  rw [hd]
  simp only [Bool.false_eq_true, if_false]
  rw [hstep, runM_of_crashed 2 fuel _ rfl]
  exact ⟨rfl, rfl⟩

/-! ### C6 and C7: multilevel-queue tier facts -/

/-- Counterexample to C6 as stated: the claim says every process is
admitted to tier index `min(priority div 4, 2)`.  For the eligible process
with priority −1 that formula gives −1, yet the admission scan appends its
id to the queue at index 2 (Python's `queues[-1]` is the last of the three
queues): the tier actually holding the process, 2, differs from the
claimed formula value. -/
theorem c6_negative_priority_tier_counterexample :
    admitM 0 [{ pid := 0, arrival_time := 0, burst_time := 5,
                priority := -1, remaining_time := 5 }] [] [] [] =
      some ([], [], [0]) ∧
    ((2 : Int) ≠ min (Int.fdiv (-1) 4) 2) := by
  decide

/-- C7: `pyTier 0 = some 0` (a priority-0 process is admitted to tier 0),
and whenever the dispatched process comes from tier 0 — the first tier
queue is non-empty after admission — that process runs to completion
within the same loop iteration: the step marks it completed at
`time + remaining_time`, rewrites no other record, and leaves the other
two tier queues untouched, so no other process executes between its
dispatch and its completion. -/
theorem c7_priority_zero_tier0_completes_in_one_dispatch
    (quantum : Int) (s : MlqState) (pid : Nat) (rest b c : List Nat)
    (hcr : s.crashed = false)
    (hadm : admitM s.time s.procs s.q0 s.q1 s.q2 = some (pid :: rest, b, c)) :
    pyTier 0 = some 0 ∧
    stepM quantum s =
      { s with
        procs := setP s.procs pid
          { findP s.procs pid with
            start_time := if (findP s.procs pid).start_time = none
                          then some s.time
                          else (findP s.procs pid).start_time,
            remaining_time := 0,
            completion_time :=
              some (s.time + (findP s.procs pid).remaining_time) },
        q0 := rest, q1 := b, q2 := c,
        time := s.time + (findP s.procs pid).remaining_time } := by
  refine ⟨by decide, ?_⟩
  unfold stepM
  rw [hcr]
  simp only [Bool.false_eq_true, if_false]
  rw [hadm]
  simp [execProc, sub_self]

/-- Witness for C7: a tier-0 process (priority 0, remaining 2) at the head
of the first queue is completed by the step at time 0 + 2. -/
theorem c7_witness :
    (({ procs := [{ pid := 0, arrival_time := 0, burst_time := 2,
                    priority := 0, remaining_time := 2 }],
        q0 := [0], q1 := [], q2 := [], time := 0,
        crashed := false } : MlqState)).crashed = false ∧
    stepM 2 { procs := [{ pid := 0, arrival_time := 0, burst_time := 2,
                          priority := 0, remaining_time := 2 }],
              q0 := [0], q1 := [], q2 := [], time := 0, crashed := false } =
      { procs := [{ pid := 0, arrival_time := 0, burst_time := 2,
                    priority := 0, remaining_time := 0,
                    start_time := some 0, completion_time := some 2 }],
        q0 := [], q1 := [], q2 := [], time := 2, crashed := false } := by
  constructor
  · rfl
  · have h := (c7_priority_zero_tier0_completes_in_one_dispatch 2
      { procs := [{ pid := 0, arrival_time := 0, burst_time := 2,
                    priority := 0, remaining_time := 2 }],
        q0 := [0], q1 := [], q2 := [], time := 0, crashed := false }
      0 [] [] [] rfl (by decide)).2
    rw [h]
    decide

/-! ### C3: stable tie-break in the selection-by-sort policies -/

lemma insertK_ne_nil (key : Nat → Int) (x : Nat) (l : List Nat) :
    insertK key x l ≠ [] := by
  cases l with
  | nil => simp [insertK]
  | cons y ys =>
    rw [insertK]
    by_cases h : key x ≤ key y <;> simp [h]

lemma isortKey_eq_nil_iff (key : Nat → Int) (q : List Nat) :
    isortKey key q = [] ↔ q = [] := by
  cases q with
  | nil => simp [isortKey]
  | cons x xs =>
    simp only [isortKey]
    constructor
    · intro h; exact absurd h (insertK_ne_nil key x _)
    · intro h; exact absurd h (by simp)

lemma head_insertK (key : Nat → Int) (x y : Nat) (ys : List Nat) :
    (insertK key x (y :: ys)).head? =
      some (if key x ≤ key y then x else y) := by
  rw [insertK]
  by_cases h : key x ≤ key y <;> simp [h]

lemma firstMinBy_eq_none_iff (key : Nat → Int) (q : List Nat) :
    firstMinBy key q = none ↔ q = [] := by
  cases q with
  | nil => simp [firstMinBy]
  | cons x xs =>
    simp only [firstMinBy]
    cases firstMinBy key xs with
    | none => simp
    | some y => by_cases h : key x ≤ key y <;> simp [h]

lemma head_isortKey (key : Nat → Int) (q : List Nat) :
    (isortKey key q).head? = firstMinBy key q := by
  induction q with
  | nil => rfl
  | cons x xs ih =>
    rw [isortKey, firstMinBy]
    cases hs : isortKey key xs with
    | nil =>
      have hxs : xs = [] := (isortKey_eq_nil_iff key xs).mp hs
      subst hxs
      simp [insertK, firstMinBy]
    | cons y ys =>
      have hys : firstMinBy key xs = some y := by
        rw [← ih, hs]; rfl
      rw [hys, head_insertK]
      by_cases h : key x ≤ key y <;> simp [h]

lemma firstMinBy_spec (key : Nat → Int) (q : List Nat) (m : Nat)
    (h : firstMinBy key q = some m) :
    ∃ q1 q2, q = q1 ++ m :: q2 ∧ (∀ y ∈ q1, key m < key y) ∧
      ∀ y ∈ q, key m ≤ key y := by
  induction q generalizing m with
  | nil => simp [firstMinBy] at h
  | cons x xs ih =>
    rw [firstMinBy] at h
    cases hs : firstMinBy key xs with
    | none =>
      have hxs : xs = [] := (firstMinBy_eq_none_iff key xs).mp hs
      rw [hs] at h
      simp only [Option.some.injEq] at h
      subst h; subst hxs
      exact ⟨[], [], rfl, by simp, by simp⟩
    | some y =>
      rw [hs] at h
      obtain ⟨q1, q2, hq, hstrict, hmin⟩ := ih y hs
      by_cases hxy : key x ≤ key y
      · simp only [hxy, if_true, Option.some.injEq] at h
        subst h
        refine ⟨[], xs, by simp, by simp, ?_⟩
        intro z hz
        rcases List.mem_cons.mp hz with hz | hz
        · subst hz; exact le_refl _
        · exact le_trans hxy (hmin z hz)
      · simp only [hxy, if_false, Option.some.injEq] at h
        subst h
        refine ⟨x :: q1, q2, by rw [hq]; rfl, ?_, ?_⟩
        · intro z hz
          rcases List.mem_cons.mp hz with hz | hz
          · subst hz; omega
          · exact hstrict z hz
        · intro z hz
          rcases List.mem_cons.mp hz with hz | hz
          · subst hz; omega
          · exact hmin z hz

lemma sublist_insertK (key : Nat → Int) (x : Nat) (l : List Nat) :
    List.Sublist l (insertK key x l) := by
  induction l with
  | nil => simp [insertK]
  | cons y ys ih =>
    rw [insertK]
    by_cases h : key x ≤ key y
    · rw [if_pos h]; exact List.Sublist.cons x (List.Sublist.refl _)
    · rw [if_neg h]; exact List.Sublist.cons₂ y ih

lemma mem_insertK (key : Nat → Int) (x a : Nat) (l : List Nat) :
    a ∈ insertK key x l ↔ a = x ∨ a ∈ l := by
  induction l with
  | nil => simp [insertK]
  | cons y ys ih =>
    rw [insertK]
    by_cases h : key x ≤ key y
    · rw [if_pos h]; simp
    · rw [if_neg h]
      simp only [List.mem_cons, ih]
      tauto

lemma mem_isortKey (key : Nat → Int) (a : Nat) (q : List Nat) :
    a ∈ isortKey key q ↔ a ∈ q := by
  induction q with
  | nil => simp [isortKey]
  | cons x xs ih =>
    rw [isortKey, mem_insertK]
    simp [ih]

lemma insertK_before_mem (key : Nat → Int) (x b : Nat) (l : List Nat)
    (hb : b ∈ l) (hk : key x ≤ key b) :
    List.Sublist [x, b] (insertK key x l) := by
  induction l with
  | nil => simp at hb
  | cons y ys ih =>
    rw [insertK]
    by_cases h : key x ≤ key y
    · rw [if_pos h]
      exact List.Sublist.cons₂ x (List.singleton_sublist.mpr hb)
    · rw [if_neg h]
      rcases List.mem_cons.mp hb with hb | hb
      · subst hb; omega
      · exact List.Sublist.cons y (ih hb)

lemma isortKey_stable (key : Nat → Int) (q : List Nat) (a b : Nat)
    (h : List.Sublist [a, b] q) (hk : key a = key b) :
    List.Sublist [a, b] (isortKey key q) := by
  induction q with
  | nil => simp at h
  | cons x xs ih =>
    rw [isortKey]
    cases h with
    | cons _ h2 => exact (ih h2).trans (sublist_insertK key x _)
    | cons₂ _ h2 =>
      have hb : b ∈ isortKey key xs :=
        (mem_isortKey key b xs).mpr (List.singleton_sublist.mp h2)
      exact insertK_before_mem key a b _ hb (le_of_eq hk)

lemma insertK_perm (key : Nat → Int) (x : Nat) (l : List Nat) :
    List.Perm (insertK key x l) (x :: l) := by
  induction l with
  | nil => simp [insertK]
  | cons y ys ih =>
    rw [insertK]
    by_cases h : key x ≤ key y
    · rw [if_pos h]
    · rw [if_neg h]
      exact (List.Perm.cons y ih).trans (List.Perm.swap x y ys)

lemma isortKey_perm (key : Nat → Int) (q : List Nat) :
    List.Perm (isortKey key q) q := by
  induction q with
  | nil => rfl
  | cons x xs ih =>
    rw [isortKey]
    exact (insertK_perm key x _).trans (List.Perm.cons x ih)

lemma admitLoop_append (t : Int) (ps : List Process) (q : List Nat) :
    ∃ new, admitLoop t ps q = q ++ new ∧
      List.Sublist new (ps.map (fun p => p.pid)) := by
  induction ps generalizing q with
  | nil => exact ⟨[], by simp [admitLoop], by simp⟩
  | cons p ps ih =>
    rw [admitLoop]
    by_cases h : p.arrival_time ≤ t ∧ p.completion_time = none ∧ p.pid ∉ q
    · rw [if_pos h]
      obtain ⟨new, hq, hs⟩ := ih (q ++ [p.pid])
      refine ⟨p.pid :: new, by rw [hq]; simp, ?_⟩
      simpa using List.Sublist.cons₂ p.pid hs
    · rw [if_neg h]
      obtain ⟨new, hq, hs⟩ := ih q
      exact ⟨new, hq, List.Sublist.cons p.pid hs⟩

/-- C3: in the four selection-by-sort policies the dispatched process is
the head of the stable sort of the ready queue, and that selection is the
earliest-admitted process among those sharing the minimum key.
Conjunct 1: whenever the sorted ready queue starts with `pid`, the queue
splits as `q1 ++ pid :: q2` where every element before `pid` has a strictly
larger key and `pid` attains the minimum — so among minimum-key sharers the
earliest element of the queue is selected.  Conjunct 2: the sort preserves
the relative order of any two equal-key queue elements (stability).
Conjunct 3: admission only appends newly arrived processes at the back of
the queue, in original-list traversal order.  Together: queue order among
equal-key processes is admission order, and the earliest-admitted
minimum-key process is selected first.  This applies to
`sjf_nonpreemptive` and `sjf_preemptive` (key `remaining_time`) and
`priority_nonpreemptive` and `priority_preemptive` (key `priority`), whose
step functions dispatch the head of `sortQ` after the admission scan. -/
theorem c3_stable_tie_break :
    (∀ (k : Process → Int) (procs : List Process) (q : List Nat)
        (pid : Nat) (rest : List Nat),
      sortQ k procs q = pid :: rest →
      ∃ q1 q2, q = q1 ++ pid :: q2 ∧
        (∀ y ∈ q1, k (findP procs pid) < k (findP procs y)) ∧
        ∀ y ∈ q, k (findP procs pid) ≤ k (findP procs y)) ∧
    (∀ (k : Process → Int) (procs : List Process) (q : List Nat) (a b : Nat),
      List.Sublist [a, b] q → k (findP procs a) = k (findP procs b) →
      List.Sublist [a, b] (sortQ k procs q)) ∧
    (∀ s : SimState, ∃ new, (admitArrivals s).queue = s.queue ++ new ∧
      List.Sublist new (pidsOf s.procs)) := by
  refine ⟨?_, ?_, ?_⟩
  · intro k procs q pid rest hsort
    have hh : (isortKey (fun pid => k (findP procs pid)) q).head? = some pid := by
      rw [show isortKey (fun pid => k (findP procs pid)) q = pid :: rest
            from hsort]
      rfl
    rw [head_isortKey] at hh
    exact firstMinBy_spec _ q pid hh
  · intro k procs q a b hab hk
    exact isortKey_stable _ q a b hab hk
  · intro s
    exact admitLoop_append s.time s.procs s.queue

/-- Tie workload for the C3 witness: two processes with equal keys. -/
def tieProcs : List Process :=
  [{ pid := 0, arrival_time := 0, burst_time := 3, priority := 5,
     remaining_time := 3 },
   { pid := 1, arrival_time := 0, burst_time := 3, priority := 5,
     remaining_time := 3 }]

/-- Witness for C3 on a concrete two-process tie. -/
theorem c3_witness :
    (∃ q1 q2, ([0, 1] : List Nat) = q1 ++ 0 :: q2 ∧
      (∀ y ∈ q1, (findP tieProcs 0).remaining_time <
        (findP tieProcs y).remaining_time) ∧
      ∀ y ∈ ([0, 1] : List Nat), (findP tieProcs 0).remaining_time ≤
        (findP tieProcs y).remaining_time) ∧
    List.Sublist [0, 1]
      (sortQ (fun p => p.remaining_time) tieProcs [0, 1]) ∧
    ∃ new, (admitArrivals { procs := tieProcs, queue := [], time := 0 }).queue =
      [] ++ new ∧
      List.Sublist new (pidsOf tieProcs) := by
  refine ⟨?_, ?_, ?_⟩
  · exact c3_stable_tie_break.1 (fun p => p.remaining_time) tieProcs
      [0, 1] 0 [1] (by decide)
  · exact c3_stable_tie_break.2.1 (fun p => p.remaining_time) tieProcs
      [0, 1] 0 1 (List.Sublist.refl _) (by decide)
  · exact c3_stable_tie_break.2.2 { procs := tieProcs, queue := [], time := 0 }

/-! ### Workload validity and the run invariant -/

/-- Valid workload in the sense of the spec data model: distinct process
ids and strictly positive burst times. -/
def ValidW (ps : List Process) : Prop :=
  (pidsOf ps).Nodup ∧ ∀ p ∈ ps, 1 ≤ p.burst_time

/-- Invariant of a running simulation relating the record list, the set of
currently queued ids `qs` (for the multilevel queue: the three queues
joined) and the clock. -/
def InvRecs (procs : List Process) (qs : List Nat) (t : Int) : Prop :=
  0 ≤ t ∧
  (pidsOf procs).Nodup ∧
  (∀ p ∈ procs, 1 ≤ p.burst_time) ∧
  qs.Nodup ∧
  (∀ pid ∈ qs, pid ∈ pidsOf procs) ∧
  ∀ p ∈ procs,
    (p.pid ∈ qs →
      p.completion_time = none ∧ 1 ≤ p.remaining_time ∧
      p.remaining_time ≤ p.burst_time ∧ p.arrival_time ≤ t ∧
      p.arrival_time + (p.burst_time - p.remaining_time) ≤ t) ∧
    (p.completion_time = none → p.pid ∉ qs →
      p.remaining_time = p.burst_time) ∧
    ∀ c, p.completion_time = some c →
      p.remaining_time = 0 ∧ p.arrival_time + p.burst_time ≤ c ∧
      1 ≤ c ∧ c ≤ t

/-! ### Record lookup and rewrite helpers -/

lemma pid_inj {procs : List Process} (hnd : (pidsOf procs).Nodup)
    {p q : Process} (hp : p ∈ procs) (hq : q ∈ procs)
    (hpq : p.pid = q.pid) : p = q :=
  List.inj_on_of_nodup_map hnd hp hq hpq

lemma findP_mem_eq {procs : List Process} (hnd : (pidsOf procs).Nodup)
    {p : Process} (hp : p ∈ procs) : findP procs p.pid = p := by
  induction procs with
  | nil => simp at hp
  | cons q qs ih =>
    rcases List.mem_cons.mp hp with h | h
    · subst h
      simp [findP]
    · by_cases hqp : q.pid = p.pid
      · have : q = p := pid_inj hnd (by simp) (by simp [h]) hqp
        subst this
        simp [findP]
      · have hnd2 : (pidsOf qs).Nodup := by
          have := hnd
          simp only [pidsOf, List.map_cons, List.nodup_cons] at this
          exact this.2
        have := ih hnd2 h
        unfold findP at this ⊢
        rw [List.find?_cons_of_neg _ (by simpa using hqp)]
        exact this

lemma mem_pidsOf {procs : List Process} {pid : Nat} :
    pid ∈ pidsOf procs ↔ ∃ p ∈ procs, p.pid = pid := by
  simp [pidsOf, List.mem_map, eq_comm]

lemma findP_pid {procs : List Process} (hnd : (pidsOf procs).Nodup)
    {pid : Nat} (h : pid ∈ pidsOf procs) :
    (findP procs pid).pid = pid ∧ findP procs pid ∈ procs := by
  obtain ⟨p, hp, hpid⟩ := mem_pidsOf.mp h
  subst hpid
  rw [findP_mem_eq hnd hp]
  exact ⟨rfl, hp⟩

lemma pidsOf_setP (procs : List Process) (pid : Nat) (newP : Process)
    (h : newP.pid = pid) : pidsOf (setP procs pid newP) = pidsOf procs := by
  unfold pidsOf setP
  rw [List.map_map]
  apply List.map_congr_left
  intro q _
  by_cases hq : q.pid = pid
  · simp [hq, h]
  · simp [hq]

lemma mem_setP {procs : List Process} {pid : Nat} {newP q : Process}
    (h : q ∈ setP procs pid newP) :
    (q = newP ∧ ∃ p ∈ procs, p.pid = pid) ∨ (q ∈ procs ∧ q.pid ≠ pid) := by
  unfold setP at h
  obtain ⟨p, hp, hq⟩ := List.mem_map.mp h
  by_cases hpid : p.pid = pid
  · rw [if_pos hpid] at hq
    exact Or.inl ⟨hq.symm, p, hp, hpid⟩
  · rw [if_neg hpid] at hq
    subst hq
    exact Or.inr ⟨hp, hpid⟩

/-! ### Admission preserves the invariant -/

lemma admitLoop_nodup (t : Int) (ps : List Process) (q : List Nat)
    (h : q.Nodup) : (admitLoop t ps q).Nodup := by
  induction ps generalizing q with
  | nil => simpa [admitLoop] using h
  | cons p ps ih =>
    rw [admitLoop]
    by_cases hc : p.arrival_time ≤ t ∧ p.completion_time = none ∧ p.pid ∉ q
    · rw [if_pos hc]
      exact ih _ (by simp [List.nodup_append, h, hc.2.2])
    · rw [if_neg hc]
      exact ih _ h

lemma admitLoop_mem (t : Int) (ps : List Process) (q : List Nat)
    (pid : Nat) (h : pid ∈ admitLoop t ps q) :
    pid ∈ q ∨ (pid ∉ q ∧ ∃ p ∈ ps, p.pid = pid ∧ p.arrival_time ≤ t ∧
      p.completion_time = none) := by
  induction ps generalizing q with
  | nil => exact Or.inl (by simpa [admitLoop] using h)
  | cons p ps ih =>
    rw [admitLoop] at h
    by_cases hc : p.arrival_time ≤ t ∧ p.completion_time = none ∧ p.pid ∉ q
    · rw [if_pos hc] at h
      rcases ih _ h with h2 | ⟨hnotin, p2, hp2, hrest⟩
      · rcases List.mem_append.mp h2 with h3 | h3
        · exact Or.inl h3
        · have : pid = p.pid := by simpa using h3
          subst this
          exact Or.inr ⟨hc.2.2, p, by simp, rfl, hc.1, hc.2.1⟩
      · refine Or.inr ⟨fun hq => hnotin (by simp [hq]), p2, by simp [hp2],
          hrest⟩
    · rw [if_neg hc] at h
      rcases ih _ h with h2 | ⟨hnotin, p2, hp2, hrest⟩
      · exact Or.inl h2
      · exact Or.inr ⟨hnotin, p2, by simp [hp2], hrest⟩

lemma mem_admitLoop_of_mem (t : Int) (ps : List Process) (q : List Nat)
    (pid : Nat) (h : pid ∈ q) : pid ∈ admitLoop t ps q := by
  obtain ⟨new, hq, -⟩ := admitLoop_append t ps q
  rw [hq]
  exact List.mem_append_left _ h

lemma InvRecs_admitLoop (procs : List Process) (qs : List Nat) (t : Int)
    (h : InvRecs procs qs t) : InvRecs procs (admitLoop t procs qs) t := by
  obtain ⟨ht, hnd, hb, hqnd, hqpid, hrec⟩ := h
  refine ⟨ht, hnd, hb, admitLoop_nodup t procs qs hqnd, ?_, ?_⟩
  · intro pid hpid
    rcases admitLoop_mem t procs qs pid hpid with h2 | ⟨-, p, hp, hpid2, -⟩
    · exact hqpid pid h2
    · exact mem_pidsOf.mpr ⟨p, hp, hpid2⟩
  · intro p hp
    obtain ⟨ha, hbclause, hc⟩ := hrec p hp
    refine ⟨?_, ?_, hc⟩
    · intro hmem
      rcases admitLoop_mem t procs qs p.pid hmem with h2 | ⟨hnotin, p2, hp2, hpid2, harr, hcomp⟩
      · exact ha h2
      · have hpp : p2 = p := pid_inj hnd hp2 hp hpid2
        subst hpp
        have hrem : p2.remaining_time = p2.burst_time := hbclause hcomp hnotin
        refine ⟨hcomp, ?_, ?_, harr, ?_⟩
        · rw [hrem]; exact hb p2 hp
        · rw [hrem]
        · rw [hrem]; omega
    · intro hcomp hnotin
      exact hbclause hcomp (fun hq => hnotin (mem_admitLoop_of_mem t procs qs _ hq))

lemma InvRecs_mono_time (procs : List Process) (qs : List Nat) (t t2 : Int)
    (h : InvRecs procs qs t) (ht : t ≤ t2) : InvRecs procs qs t2 := by
  obtain ⟨ht0, hnd, hb, hqnd, hqpid, hrec⟩ := h
  refine ⟨by omega, hnd, hb, hqnd, hqpid, ?_⟩
  intro p hp
  obtain ⟨ha, hbclause, hc⟩ := hrec p hp
  refine ⟨?_, hbclause, ?_⟩
  · intro hmem
    obtain ⟨h1, h2, h3, h4, h5⟩ := ha hmem
    exact ⟨h1, h2, h3, by omega, by omega⟩
  · intro c hcomp
    obtain ⟨h1, h2, h3, h4⟩ := hc c hcomp
    exact ⟨h1, h2, h3, by omega⟩

/-! ### The execution slice preserves the invariant -/

lemma execProc_eq_pos (procs : List Process) (t : Int) (pid : Nat) (e : Int)
    (hr2 : (findP procs pid).remaining_time - e = 0) :
    execProc procs t pid e =
      (setP procs pid
        { findP procs pid with
          start_time := if (findP procs pid).start_time = none then some t
                        else (findP procs pid).start_time,
          remaining_time := (findP procs pid).remaining_time - e,
          completion_time := some (t + e) }, t + e, true) := by
  simp only [execProc]
  rw [if_pos hr2]

lemma execProc_eq_neg (procs : List Process) (t : Int) (pid : Nat) (e : Int)
    (hr2 : ¬ (findP procs pid).remaining_time - e = 0) :
    execProc procs t pid e =
      (setP procs pid
        { findP procs pid with
          start_time := if (findP procs pid).start_time = none then some t
                        else (findP procs pid).start_time,
          remaining_time := (findP procs pid).remaining_time - e }, t + e,
        false) := by
  simp only [execProc]
  rw [if_neg hr2]

lemma InvRecs_execProc (procs : List Process) (qs : List Nat) (t : Int)
    (pid : Nat) (e : Int) (qs2 : List Nat)
    (h : InvRecs procs qs t) (hmem : pid ∈ qs) (he : 1 ≤ e)
    (hle : e ≤ (findP procs pid).remaining_time)
    (hfin : (execProc procs t pid e).2.2 = true →
      List.Perm (pid :: qs2) qs)
    (hnfin : (execProc procs t pid e).2.2 = false → List.Perm qs2 qs) :
    InvRecs (execProc procs t pid e).1 qs2 (execProc procs t pid e).2.1 := by
  obtain ⟨ht, hnd, hb, hqnd, hqpid, hrec⟩ := h
  have hpidsmem : pid ∈ pidsOf procs := hqpid pid hmem
  obtain ⟨hp0pid, hp0mem⟩ := findP_pid hnd hpidsmem
  obtain ⟨hcomp0, hrem1, hremb, harr, hacc⟩ :=
    (hrec _ hp0mem).1 (by rw [hp0pid]; exact hmem)
  by_cases hr2 : (findP procs pid).remaining_time - e = 0
  · rw [execProc_eq_pos procs t pid e hr2] at hfin ⊢
    dsimp only at hfin ⊢
    have hperm := hfin rfl
    have hnd2 : (pid :: qs2).Nodup := hperm.nodup_iff.mpr hqnd
    have hpidnot : pid ∉ qs2 := (List.nodup_cons.mp hnd2).1
    have hqs2nd : qs2.Nodup := (List.nodup_cons.mp hnd2).2
    have hmemqs2 : ∀ x ∈ qs2, x ∈ qs := by
      intro x hx
      exact hperm.mem_iff.mp (by simp [hx])
    have hpids2 : pidsOf (setP procs pid
        { findP procs pid with
          start_time := if (findP procs pid).start_time = none then some t
                        else (findP procs pid).start_time,
          remaining_time := (findP procs pid).remaining_time - e,
          completion_time := some (t + e) }) = pidsOf procs :=
      pidsOf_setP _ _ _ hp0pid
    refine ⟨by omega, by rw [hpids2]; exact hnd, ?_, hqs2nd, ?_, ?_⟩
    · intro q hq
      rcases mem_setP hq with ⟨hq2, -⟩ | ⟨hq2, -⟩
      · subst hq2; exact hb (findP procs pid) hp0mem
      · exact hb _ hq2
    · intro x hx
      rw [hpids2]
      exact hqpid x (hmemqs2 x hx)
    · intro q hq
      rcases mem_setP hq with ⟨hq2, -⟩ | ⟨hq2, hqpid2⟩
      · subst hq2
        dsimp only
        refine ⟨?_, ?_, ?_⟩
        · intro hmem2
          simp only [hp0pid] at hmem2
          exact absurd hmem2 hpidnot
        · intro hcomp2
          simp at hcomp2
        · intro c hc
          simp only [Option.some.injEq] at hc
          subst hc
          refine ⟨hr2, by omega, by omega, by omega⟩
      · obtain ⟨ha, hbc, hc⟩ := hrec q hq2
        refine ⟨?_, ?_, ?_⟩
        · intro hmem2
          have : q.pid ∈ qs := hmemqs2 _ hmem2
          obtain ⟨h1, h2, h3, h4, h5⟩ := ha this
          exact ⟨h1, h2, h3, by omega, by omega⟩
        · intro hcomp2 hnot2
          refine hbc hcomp2 ?_
          intro hin
          rcases List.mem_cons.mp (hperm.mem_iff.mpr hin) with h6 | h6
          · exact hqpid2 h6
          · exact hnot2 h6
        · intro c hcomp2
          obtain ⟨h1, h2, h3, h4⟩ := hc c hcomp2
          exact ⟨h1, h2, h3, by omega⟩
  · rw [execProc_eq_neg procs t pid e hr2] at hnfin ⊢
    dsimp only at hnfin ⊢
    have hperm := hnfin rfl
    have hqs2nd : qs2.Nodup := hperm.nodup_iff.mpr hqnd
    have hmemqs2 : ∀ x, x ∈ qs2 ↔ x ∈ qs := fun x => hperm.mem_iff
    have hpids2 : pidsOf (setP procs pid
        { findP procs pid with
          start_time := if (findP procs pid).start_time = none then some t
                        else (findP procs pid).start_time,
          remaining_time := (findP procs pid).remaining_time - e }) =
        pidsOf procs :=
      pidsOf_setP _ _ _ hp0pid
    refine ⟨by omega, by rw [hpids2]; exact hnd, ?_, hqs2nd, ?_, ?_⟩
    · intro q hq
      rcases mem_setP hq with ⟨hq2, -⟩ | ⟨hq2, -⟩
      · subst hq2; exact hb (findP procs pid) hp0mem
      · exact hb _ hq2
    · intro x hx
      rw [hpids2]
      exact hqpid x ((hmemqs2 x).mp hx)
    · intro q hq
      rcases mem_setP hq with ⟨hq2, -⟩ | ⟨hq2, hqpid2⟩
      · subst hq2
        dsimp only
        refine ⟨?_, ?_, ?_⟩
        · intro hmem2
          refine ⟨hcomp0, by omega, by omega, by omega, by omega⟩
        · intro hcomp2 hnot2
          exact absurd ((hmemqs2 _).mpr (by rw [hp0pid]; exact hmem)) hnot2
        · intro c hc
          rw [hcomp0] at hc
          simp at hc
      · obtain ⟨ha, hbc, hc⟩ := hrec q hq2
        refine ⟨?_, ?_, ?_⟩
        · intro hmem2
          obtain ⟨h1, h2, h3, h4, h5⟩ := ha ((hmemqs2 _).mp hmem2)
          exact ⟨h1, h2, h3, by omega, by omega⟩
        · intro hcomp2 hnot2
          exact hbc hcomp2 (fun hin => hnot2 ((hmemqs2 _).mpr hin))
        · intro c hcomp2
          obtain ⟨h1, h2, h3, h4⟩ := hc c hcomp2
          exact ⟨h1, h2, h3, by omega⟩

/-! ### Step functions preserve the invariant -/

/-- Invariant of a single-queue policy state. -/
def InvS (s : SimState) : Prop := InvRecs s.procs s.queue s.time

lemma queued_facts {procs : List Process} {qs : List Nat} {t : Int}
    (h : InvRecs procs qs t) {pid : Nat} (hmem : pid ∈ qs) :
    1 ≤ (findP procs pid).remaining_time ∧
    (findP procs pid).remaining_time ≤ (findP procs pid).burst_time := by
  obtain ⟨-, hnd, -, -, hqpid, hrec⟩ := h
  obtain ⟨hp0pid, hp0mem⟩ := findP_pid hnd (hqpid pid hmem)
  obtain ⟨-, h1, h2, -, -⟩ := (hrec _ hp0mem).1 (by rw [hp0pid]; exact hmem)
  exact ⟨h1, h2⟩

lemma InvS_admit {s : SimState} (h : InvS s) : InvS (admitArrivals s) :=
  InvRecs_admitLoop s.procs s.queue s.time h

lemma npQueue_perm (sk : Option (Process → Int)) (s1 : SimState) :
    List.Perm (npQueue sk s1) s1.queue := by
  cases sk with
  | none => exact List.Perm.refl _
  | some k => exact isortKey_perm _ _

lemma runToCompletion_eq_exec (s1 : SimState) (pid : Nat)
    (rest : List Nat) :
    runToCompletion s1 pid rest =
      { procs := (execProc s1.procs s1.time pid
          (findP s1.procs pid).remaining_time).1,
        queue := rest,
        time := (execProc s1.procs s1.time pid
          (findP s1.procs pid).remaining_time).2.1 } := by
  rw [execProc_eq_pos _ _ _ _ (sub_self _)]
  simp [runToCompletion, sub_self]

lemma InvS_stepNP (sk : Option (Process → Int)) (s : SimState)
    (h : InvS s) : InvS (stepNP sk s) := by
  have h1 : InvRecs (admitArrivals s).procs (admitArrivals s).queue (admitArrivals s).time :=
    InvS_admit h
  have hperm := npQueue_perm sk (admitArrivals s)
  unfold stepNP
  dsimp only
  rcases hq : npQueue sk (admitArrivals s) with _ | ⟨pid, rest⟩
  all_goals dsimp only
  · dsimp only [idleTick, InvS]
    exact InvRecs_mono_time _ _ _ _ h1 (by omega)
  · rw [hq] at hperm
    have hmem : pid ∈ (admitArrivals s).queue := hperm.mem_iff.mp (by simp)
    obtain ⟨hrem1, -⟩ := queued_facts h1 hmem
    rw [runToCompletion_eq_exec]
    exact InvRecs_execProc _ _ _ _ _ _ h1 hmem hrem1 (le_refl _)
      (fun _ => hperm) (fun hf => by
        rw [execProc_eq_pos _ _ _ _ (sub_self _)] at hf
        simp at hf)

lemma InvS_stepP (k : Process → Int) (s : SimState) (h : InvS s) :
    InvS (stepP k s) := by
  have h1 : InvRecs (admitArrivals s).procs (admitArrivals s).queue (admitArrivals s).time :=
    InvS_admit h
  have hperm := isortKey_perm (fun pid => k (findP (admitArrivals s).procs pid))
    (admitArrivals s).queue
  unfold stepP
  dsimp only
  rcases hq : sortQ k (admitArrivals s).procs (admitArrivals s).queue with _ | ⟨pid, rest⟩
  all_goals dsimp only
  · dsimp only [idleTick, InvS]
    exact InvRecs_mono_time _ _ _ _ h1 (by omega)
  · rw [show sortQ k (admitArrivals s).procs (admitArrivals s).queue =
          isortKey (fun pid => k (findP (admitArrivals s).procs pid))
            (admitArrivals s).queue from rfl] at hq
    rw [hq] at hperm
    have hmem : pid ∈ (admitArrivals s).queue := hperm.mem_iff.mp (by simp)
    obtain ⟨hrem1, -⟩ := queued_facts h1 hmem
    rcases hex : execProc (admitArrivals s).procs (admitArrivals s).time pid 1 with
      ⟨procs2, t2, fin⟩
    have hinv := InvRecs_execProc (admitArrivals s).procs (admitArrivals s).queue
      (admitArrivals s).time pid 1 (if fin then rest else pid :: rest) h1 hmem
      (le_refl _) hrem1
      (fun hf => by
        rw [hex] at hf
        dsimp only at hf
        subst hf
        simpa using hperm)
      (fun hf => by
        rw [hex] at hf
        dsimp only at hf
        subst hf
        simpa using hperm)
    rw [hex] at hinv
    dsimp only at hinv
    exact hinv

lemma InvS_stepRR (quantum : Int) (s : SimState) (hquant : 1 ≤ quantum)
    (h : InvS s) : InvS (stepRR quantum s) := by
  have h1 : InvRecs (admitArrivals s).procs (admitArrivals s).queue (admitArrivals s).time :=
    InvS_admit h
  unfold stepRR
  dsimp only
  rcases hq : (admitArrivals s).queue with _ | ⟨pid, rest⟩
  all_goals dsimp only
  · dsimp only [idleTick, InvS]
    rw [hq]
    rw [hq] at h1
    exact InvRecs_mono_time _ _ _ _ h1 (by omega)
  · have hmem : pid ∈ (admitArrivals s).queue := by rw [hq]; simp
    obtain ⟨hrem1, -⟩ := queued_facts h1 hmem
    rcases hex : execProc (admitArrivals s).procs (admitArrivals s).time pid
      (min quantum (findP (admitArrivals s).procs pid).remaining_time) with
      ⟨procs2, t2, fin⟩
    have hinv := InvRecs_execProc (admitArrivals s).procs (admitArrivals s).queue
      (admitArrivals s).time pid
      (min quantum (findP (admitArrivals s).procs pid).remaining_time)
      (if fin then rest else rest ++ [pid]) h1 hmem
      (le_min hquant hrem1) (min_le_right _ _)
      (fun hf => by
        rw [hex] at hf
        dsimp only at hf
        subst hf
        rw [hq]
        simp)
      (fun hf => by
        rw [hex] at hf
        dsimp only at hf
        subst hf
        rw [hq]
        simp only [if_neg (Bool.false_ne_true)]
        exact List.perm_append_singleton pid rest)
    rw [hex] at hinv
    dsimp only at hinv
    exact hinv

lemma InvS_runSim (step : SimState → SimState)
    (hstep : ∀ s, InvS s → InvS (step s)) :
    ∀ (fuel : Nat) (s : SimState), InvS s → InvS (runSim step fuel s) := by
  intro fuel
  induction fuel with
  | zero => intro s h; exact h
  | succ f ih =>
    intro s h
    rw [runSim]
    by_cases hd : doneS s = true
    · rw [if_pos hd]; exact h
    · rw [if_neg hd]; exact ih _ (hstep s h)

lemma InvS_initState (ps : List Process) (h : ValidW ps) :
    InvS (initState ps) := by
  obtain ⟨hnd, hb⟩ := h
  have hpids : pidsOf (ps.map cloneP) = pidsOf ps := by
    unfold pidsOf cloneP
    rw [List.map_map]
    rfl
  refine ⟨le_refl _, by rw [show (initState ps).procs = ps.map cloneP
      from rfl, hpids]; exact hnd, ?_, by simp [initState], ?_, ?_⟩
  · intro p hp
    obtain ⟨q, hq, hpq⟩ := List.mem_map.mp hp
    subst hpq
    exact hb q hq
  · intro pid hpid
    simp [initState] at hpid
  · intro p hp
    refine ⟨?_, ?_, ?_⟩
    · intro hmem
      simp [initState] at hmem
    · intro _ _
      obtain ⟨q, hq, hpq⟩ := List.mem_map.mp hp
      subst hpq
      rfl
    · intro c hc
      obtain ⟨q, hq, hpq⟩ := List.mem_map.mp hp
      subst hpq
      simp [cloneP] at hc

/-! ### Multilevel-queue invariant -/

/-- Invariant of a multilevel-queue state: `InvRecs` over the three tier
queues joined. -/
def InvM (s : MlqState) : Prop :=
  InvRecs s.procs (s.q0 ++ s.q1 ++ s.q2) s.time

lemma admitM_props (t : Int) :
    ∀ (ps : List Process) (a b c a2 b2 c2 : List Nat),
    admitM t ps a b c = some (a2, b2, c2) →
    ∃ new, List.Perm (a2 ++ b2 ++ c2) ((a ++ b ++ c) ++ new) ∧
      new.Nodup ∧
      ∀ pid ∈ new, pid ∉ a ++ b ++ c ∧ ∃ p ∈ ps, p.pid = pid ∧
        p.arrival_time ≤ t ∧ p.completion_time = none := by
  intro ps
  induction ps with
  | nil =>
    intro a b c a2 b2 c2 h
    rw [admitM] at h
    simp only [Option.some.injEq, Prod.mk.injEq] at h
    obtain ⟨h1, h2, h3⟩ := h
    subst h1; subst h2; subst h3
    exact ⟨[], by simp, by simp, by simp⟩
  | cons p ps ih =>
    intro a b c a2 b2 c2 h
    rw [admitM] at h
    by_cases hel : p.arrival_time ≤ t ∧ p.completion_time = none ∧
        p.pid ∉ a ∧ p.pid ∉ b ∧ p.pid ∉ c
    · rw [if_pos hel] at h
      rcases hpt : pyTier p.priority with _ | n
      · rw [hpt] at h
        simp at h
      · rw [hpt] at h
        match n, h with
        | 0, h =>
          obtain ⟨new2, hperm2, hnd2, hmem2⟩ := ih (a ++ [p.pid]) b c a2 b2 c2 h
          refine ⟨p.pid :: new2, ?_, ?_, ?_⟩
          · rw [List.perm_iff_count] at hperm2 ⊢
            intro x
            have := hperm2 x
            simp only [List.count_append, List.count_cons, List.count_nil] at this ⊢
            omega
          · rw [List.nodup_cons]
            refine ⟨fun hin => ?_, hnd2⟩
            exact (hmem2 _ hin).1 (by simp)
          · intro pid hpid
            rcases List.mem_cons.mp hpid with h2 | h2
            · subst h2
              refine ⟨by simp [hel.2.2.1, hel.2.2.2.1, hel.2.2.2.2], p,
                by simp, rfl, hel.1, hel.2.1⟩
            · obtain ⟨hnot, p2, hp2, hrest⟩ := hmem2 _ h2
              refine ⟨fun hin => hnot ?_, p2, by simp [hp2], hrest⟩
              simp only [List.mem_append] at hin ⊢
              tauto
        | 1, h =>
          obtain ⟨new2, hperm2, hnd2, hmem2⟩ := ih a (b ++ [p.pid]) c a2 b2 c2 h
          refine ⟨p.pid :: new2, ?_, ?_, ?_⟩
          · rw [List.perm_iff_count] at hperm2 ⊢
            intro x
            have := hperm2 x
            simp only [List.count_append, List.count_cons, List.count_nil] at this ⊢
            omega
          · rw [List.nodup_cons]
            refine ⟨fun hin => ?_, hnd2⟩
            exact (hmem2 _ hin).1 (by simp)
          · intro pid hpid
            rcases List.mem_cons.mp hpid with h2 | h2
            · subst h2
              refine ⟨by simp [hel.2.2.1, hel.2.2.2.1, hel.2.2.2.2], p,
                by simp, rfl, hel.1, hel.2.1⟩
            · obtain ⟨hnot, p2, hp2, hrest⟩ := hmem2 _ h2
              refine ⟨fun hin => hnot ?_, p2, by simp [hp2], hrest⟩
              simp only [List.mem_append] at hin ⊢
              tauto
        | Nat.succ (Nat.succ m), h =>
          obtain ⟨new2, hperm2, hnd2, hmem2⟩ := ih a b (c ++ [p.pid]) a2 b2 c2 h
          refine ⟨p.pid :: new2, ?_, ?_, ?_⟩
          · rw [List.perm_iff_count] at hperm2 ⊢
            intro x
            have := hperm2 x
            simp only [List.count_append, List.count_cons, List.count_nil] at this ⊢
            omega
          · rw [List.nodup_cons]
            refine ⟨fun hin => ?_, hnd2⟩
            exact (hmem2 _ hin).1 (by simp)
          · intro pid hpid
            rcases List.mem_cons.mp hpid with h2 | h2
            · subst h2
              refine ⟨by simp [hel.2.2.1, hel.2.2.2.1, hel.2.2.2.2], p,
                by simp, rfl, hel.1, hel.2.1⟩
            · obtain ⟨hnot, p2, hp2, hrest⟩ := hmem2 _ h2
              refine ⟨fun hin => hnot ?_, p2, by simp [hp2], hrest⟩
              simp only [List.mem_append] at hin ⊢
              tauto
    · rw [if_neg hel] at h
      obtain ⟨new2, hperm2, hnd2, hmem2⟩ := ih a b c a2 b2 c2 h
      refine ⟨new2, hperm2, hnd2, ?_⟩
      intro pid hpid
      obtain ⟨hnot, p2, hp2, hrest⟩ := hmem2 _ hpid
      exact ⟨hnot, p2, by simp [hp2], hrest⟩

lemma InvRecs_admitM (procs : List Process) (a b c a2 b2 c2 : List Nat)
    (t : Int) (h : InvRecs procs (a ++ b ++ c) t)
    (hadm : admitM t procs a b c = some (a2, b2, c2)) :
    InvRecs procs (a2 ++ b2 ++ c2) t := by
  obtain ⟨new, hperm, hndnew, hmemnew⟩ := admitM_props t procs a b c a2 b2 c2 hadm
  obtain ⟨ht, hnd, hb, hqnd, hqpid, hrec⟩ := h
  have hJnew : ((a ++ b ++ c) ++ new).Nodup := by
    rw [List.nodup_append]
    exact ⟨hqnd, hndnew, fun x hx hx2 => (hmemnew x hx2).1 hx⟩
  have hmemiff : ∀ x, x ∈ a2 ++ b2 ++ c2 ↔ x ∈ (a ++ b ++ c) ++ new :=
    fun x => hperm.mem_iff
  refine ⟨ht, hnd, hb, hperm.nodup_iff.mpr hJnew, ?_, ?_⟩
  · intro pid hpid
    rcases List.mem_append.mp ((hmemiff pid).mp hpid) with h2 | h2
    · exact hqpid pid h2
    · obtain ⟨-, p, hp, hpid2, -, -⟩ := hmemnew pid h2
      exact mem_pidsOf.mpr ⟨p, hp, hpid2⟩
  · intro p hp
    obtain ⟨ha, hbclause, hc⟩ := hrec p hp
    refine ⟨?_, ?_, hc⟩
    · intro hmem
      rcases List.mem_append.mp ((hmemiff p.pid).mp hmem) with h2 | h2
      · exact ha h2
      · obtain ⟨hnotin, p2, hp2, hpid2, harr, hcomp⟩ := hmemnew p.pid h2
        have hpp : p2 = p := pid_inj hnd hp2 hp hpid2
        subst hpp
        have hrem : p2.remaining_time = p2.burst_time := hbclause hcomp hnotin
        refine ⟨hcomp, ?_, ?_, harr, ?_⟩
        · rw [hrem]; exact hb p2 hp
        · rw [hrem]
        · rw [hrem]; omega
    · intro hcomp hnotin
      refine hbclause hcomp ?_
      intro hq
      exact hnotin ((hmemiff p.pid).mpr (List.mem_append_left _ hq))

lemma InvM_stepM (quantum : Int) (s : MlqState) (hquant : 1 ≤ quantum)
    (h : InvM s) : InvM (stepM quantum s) := by
  unfold stepM
  by_cases hcr : s.crashed
  · rw [if_pos hcr]
    exact h
  · rw [if_neg hcr]
    rcases hadm : admitM s.time s.procs s.q0 s.q1 s.q2 with _ | ⟨a, b, c⟩
    · exact h
    · dsimp only
      have h2 : InvRecs s.procs (a ++ b ++ c) s.time :=
        InvRecs_admitM s.procs s.q0 s.q1 s.q2 a b c s.time h hadm
      rcases ha : a with _ | ⟨pid, rest⟩
      · rcases hb : b with _ | ⟨pid, rest⟩
        · rcases hc : c with _ | ⟨pid, rest⟩
          · dsimp only
            subst ha; subst hb; subst hc
            show InvRecs s.procs (([] : List Nat) ++ [] ++ []) (s.time + 1)
            exact InvRecs_mono_time _ _ _ _ h2 (by omega)
          · dsimp only
            subst ha; subst hb; subst hc
            have hmem : pid ∈ ([] : List Nat) ++ [] ++ (pid :: rest) := by
              simp
            obtain ⟨hrem1, -⟩ := queued_facts h2 hmem
            rcases hex : execProc s.procs s.time pid
              (min quantum (findP s.procs pid).remaining_time) with
              ⟨procs2, t2, fin⟩
            have hinv := InvRecs_execProc s.procs
              (([] : List Nat) ++ [] ++ (pid :: rest)) s.time pid
              (min quantum (findP s.procs pid).remaining_time)
              (([] : List Nat) ++ [] ++ (if fin then rest else rest ++ [pid]))
              h2 hmem (le_min hquant hrem1) (min_le_right _ _)
              (fun hf => by
                rw [hex] at hf
                dsimp only at hf
                subst hf
                simp)
              (fun hf => by
                rw [hex] at hf
                dsimp only at hf
                subst hf
                simp only [List.nil_append, if_neg Bool.false_ne_true]
                exact List.perm_append_singleton pid rest)
            rw [hex] at hinv
            dsimp only at hinv
            exact hinv
        · dsimp only
          subst ha; subst hb
          have hmem : pid ∈ ([] : List Nat) ++ (pid :: rest) ++ c := by
            simp
          obtain ⟨hrem1, -⟩ := queued_facts h2 hmem
          rcases hex : execProc s.procs s.time pid
            (min quantum (findP s.procs pid).remaining_time) with
            ⟨procs2, t2, fin⟩
          have hinv := InvRecs_execProc s.procs
            (([] : List Nat) ++ (pid :: rest) ++ c) s.time pid
            (min quantum (findP s.procs pid).remaining_time)
            (([] : List Nat) ++ (if fin then rest else rest ++ [pid]) ++ c)
            h2 hmem (le_min hquant hrem1) (min_le_right _ _)
            (fun hf => by
              rw [hex] at hf
              dsimp only at hf
              subst hf
              simp)
            (fun hf => by
              rw [hex] at hf
              dsimp only at hf
              subst hf
              simp only [List.nil_append, if_neg Bool.false_ne_true]
              exact (List.perm_append_singleton pid rest).append_right c)
          rw [hex] at hinv
          dsimp only at hinv
          exact hinv
      · dsimp only
        subst ha
        have hmem : pid ∈ (pid :: rest) ++ b ++ c := by simp
        obtain ⟨hrem1, -⟩ := queued_facts h2 hmem
        rcases hex : execProc s.procs s.time pid
          (findP s.procs pid).remaining_time with ⟨procs2, t2, fin⟩
        have hinv := InvRecs_execProc s.procs ((pid :: rest) ++ b ++ c)
          s.time pid (findP s.procs pid).remaining_time
          ((if fin then rest else rest ++ [pid]) ++ b ++ c)
          h2 hmem hrem1 (le_refl _)
          (fun hf => by
            rw [hex] at hf
            dsimp only at hf
            subst hf
            simp)
          (fun hf => by
            rw [hex] at hf
            dsimp only at hf
            subst hf
            simp only [if_neg Bool.false_ne_true]
            exact ((List.perm_append_singleton pid rest).append_right
              b).append_right c)
        rw [hex] at hinv
        dsimp only at hinv
        exact hinv

lemma InvM_runM (quantum : Int) (hquant : 1 ≤ quantum) :
    ∀ (fuel : Nat) (s : MlqState), InvM s → InvM (runM quantum fuel s) := by
  intro fuel
  induction fuel with
  | zero => intro s h; exact h
  | succ f ih =>
    intro s h
    rw [runM]
    by_cases hd : (doneM s || s.crashed) = true
    · rw [if_pos hd]; exact h
    · rw [if_neg hd]; exact ih _ (InvM_stepM quantum s hquant h)

lemma InvM_initM (ps : List Process) (h : ValidW ps) : InvM (initM ps) := by
  obtain ⟨hnd, hb⟩ := h
  have hpids : pidsOf (List.map cloneP ps) = pidsOf ps := by
    unfold pidsOf cloneP
    rw [List.map_map]
    rfl
  refine ⟨le_refl _, ?_, ?_, by simp [initM], ?_, ?_⟩
  · show (pidsOf (List.map cloneP ps)).Nodup
    rw [hpids]
    exact hnd
  · intro p hp
    obtain ⟨q, hq, hpq⟩ := List.mem_map.mp hp
    subst hpq
    exact hb q hq
  · intro pid hpid
    simp [initM] at hpid
  · intro p hp
    refine ⟨?_, ?_, ?_⟩
    · intro hmem
      simp [initM] at hmem
    · intro _ _
      obtain ⟨q, hq, hpq⟩ := List.mem_map.mp hp
      subst hpq
      rfl
    · intro c hc
      obtain ⟨q, hq, hpq⟩ := List.mem_map.mp hp
      subst hpq
      simp [cloneP] at hc

/-! ### C4: invariants of completed records -/

lemma completed_of_InvRecs {procs : List Process} {qs : List Nat} {t : Int}
    (h : InvRecs procs qs t) :
    ∀ p ∈ procs, ∀ c, p.completion_time = some c →
      p.arrival_time ≤ c ∧ p.remaining_time = 0 ∧
      p.burst_time ≤ c - p.arrival_time := by
  intro p hp c hc
  obtain ⟨-, -, hb, -, -, hrec⟩ := h
  obtain ⟨h1, h2, -, -⟩ := (hrec p hp).2.2 c hc
  have := hb p hp
  exact ⟨by omega, h1, by omega⟩

/-- C4: for every policy and every valid workload (distinct pids, positive
bursts; quantum at least 1 for the quantum-based policies), every record of
the final record list whose completion time is set satisfies
`completion_time ≥ arrival_time`, `remaining_time = 0` and
`turnaround_time ≥ burst_time` (equivalently `waiting_time ≥ 0`). -/
theorem c4_completed_record_invariants (quantum : Int) (fuel : Nat)
    (ps : List Process) (hquant : 1 ≤ quantum) (hv : ValidW ps) :
    ∀ res ∈ allPolicyRuns quantum fuel ps, ∀ p ∈ res, ∀ c,
      p.completion_time = some c →
      p.arrival_time ≤ c ∧ p.remaining_time = 0 ∧
      p.burst_time ≤ c - p.arrival_time := by
  have h0 := InvS_initState ps hv
  have h1 : InvS (fcfs_run fuel ps) :=
    InvS_runSim _ (fun s h => InvS_stepNP none s h) fuel _ h0
  have h2 : InvS (sjf_nonpreemptive_run fuel ps) :=
    InvS_runSim _ (fun s h => InvS_stepNP _ s h) fuel _ h0
  have h3 : InvS (sjf_preemptive_run fuel ps) :=
    InvS_runSim _ (fun s h => InvS_stepP _ s h) fuel _ h0
  have h4 : InvS (round_robin_run quantum fuel ps) :=
    InvS_runSim _ (fun s h => InvS_stepRR quantum s hquant h) fuel _ h0
  have h5 : InvS (priority_nonpreemptive_run fuel ps) :=
    InvS_runSim _ (fun s h => InvS_stepNP _ s h) fuel _ h0
  have h6 : InvS (priority_preemptive_run fuel ps) :=
    InvS_runSim _ (fun s h => InvS_stepP _ s h) fuel _ h0
  have h7 : InvM (multilevel_queue_run quantum fuel ps) :=
    InvM_runM quantum hquant fuel _ (InvM_initM ps hv)
  intro res hres
  simp only [allPolicyRuns, List.mem_cons, List.not_mem_nil, or_false] at hres
  rcases hres with h | h | h | h | h | h | h
  all_goals subst h
  · exact completed_of_InvRecs h1
  · exact completed_of_InvRecs h2
  · exact completed_of_InvRecs h3
  · exact completed_of_InvRecs h4
  · exact completed_of_InvRecs h5
  · exact completed_of_InvRecs h6
  · exact completed_of_InvRecs h7

/-- Witness for C4 on a concrete one-process workload. -/
theorem c4_witness :
    (1 : Int) ≤ 2 ∧
    ValidW [{ pid := 0, arrival_time := 0, burst_time := 1, priority := 0,
              remaining_time := 0 }] ∧
    ∀ res ∈ allPolicyRuns 2 3
      [{ pid := 0, arrival_time := 0, burst_time := 1, priority := 0,
         remaining_time := 0 }], ∀ p ∈ res, ∀ c,
      p.completion_time = some c →
      p.arrival_time ≤ c ∧ p.remaining_time = 0 ∧
      p.burst_time ≤ c - p.arrival_time :=
  ⟨by decide, ⟨by decide, by decide⟩,
   c4_completed_record_invariants 2 3 _ (by decide) ⟨by decide, by decide⟩⟩

/-! ### C10: the metric divisions are well-defined -/

lemma le_foldl_max (l : List Int) : ∀ acc : Int, acc ≤ l.foldl max acc := by
  induction l with
  | nil => intro acc; exact le_refl _
  | cons y ys ih =>
    intro acc
    exact le_trans (le_max_left acc y) (ih (max acc y))

lemma mem_le_foldl_max (l : List Int) :
    ∀ (acc x : Int), x ∈ l → x ≤ l.foldl max acc := by
  induction l with
  | nil => intro acc x hx; simp at hx
  | cons y ys ih =>
    intro acc x hx
    rcases List.mem_cons.mp hx with h | h
    · subst h
      exact le_trans (le_max_right acc x) (le_foldl_max ys _)
    · exact ih _ x h

lemma le_max?_getD (l : List Int) (x : Int) (hx : x ∈ l) (d : Int) :
    x ≤ l.max?.getD d := by
  cases l with
  | nil => simp at hx
  | cons y ys =>
    rw [List.max?_cons']
    rcases List.mem_cons.mp hx with h | h
    · subst h
      exact le_foldl_max ys _
    · exact mem_le_foldl_max ys y x h

lemma metrics_pos_of_InvRecs {procs : List Process} {qs : List Nat}
    {t : Int} (h : InvRecs procs qs t)
    (hex : ∃ p ∈ procs, p.completion_time.isSome) :
    0 < maxCompletion (procs.filter (fun p => p.completion_time.isSome)) ∧
    (get_metrics procs).isSome := by
  obtain ⟨p, hp, hps⟩ := hex
  obtain ⟨c, hc⟩ := Option.isSome_iff_exists.mp hps
  have hcompleted : p ∈ procs.filter (fun p => p.completion_time.isSome) :=
    List.mem_filter.mpr ⟨hp, hps⟩
  have hcmem : c ∈ (procs.filter
      (fun p => p.completion_time.isSome)).filterMap
      (fun p => p.completion_time) :=
    List.mem_filterMap.mpr ⟨p, hcompleted, hc⟩
  have hc1 : 1 ≤ c := by
    obtain ⟨-, -, -, -, -, hrec⟩ := h
    obtain ⟨-, -, h3, -⟩ := (hrec p hp).2.2 c hc
    exact h3
  have hmax : 0 < maxCompletion (procs.filter
      (fun p => p.completion_time.isSome)) := by
    have := le_max?_getD _ c hcmem 0
    unfold maxCompletion
    omega
  refine ⟨hmax, ?_⟩
  have hne : procs.filter (fun p => p.completion_time.isSome) ≠ [] :=
    List.ne_nil_of_mem hcompleted
  unfold get_metrics
  rw [if_neg (by simpa [List.isEmpty_iff] using hne),
    if_neg (by omega : ¬ maxCompletion (procs.filter
      (fun p => p.completion_time.isSome)) = 0)]
  rfl

/-- C10: for every policy run over a workload with distinct pids and all
burst times at least 1 (and quantum at least 1), if some record of the
final record list is completed, then the maximal completion time over the
completed records is strictly positive, hence `get_metrics` performs no
division by zero (it returns a value, `isSome`). -/
theorem c10_metric_divisions_well_defined (quantum : Int) (fuel : Nat)
    (ps : List Process) (hquant : 1 ≤ quantum) (hv : ValidW ps) :
    ∀ res ∈ allPolicyRuns quantum fuel ps,
      (∃ p ∈ res, p.completion_time.isSome) →
      0 < maxCompletion (res.filter (fun p => p.completion_time.isSome)) ∧
      (get_metrics res).isSome := by
  have h0 := InvS_initState ps hv
  have h1 : InvS (fcfs_run fuel ps) :=
    InvS_runSim _ (fun s h => InvS_stepNP none s h) fuel _ h0
  have h2 : InvS (sjf_nonpreemptive_run fuel ps) :=
    InvS_runSim _ (fun s h => InvS_stepNP _ s h) fuel _ h0
  have h3 : InvS (sjf_preemptive_run fuel ps) :=
    InvS_runSim _ (fun s h => InvS_stepP _ s h) fuel _ h0
  have h4 : InvS (round_robin_run quantum fuel ps) :=
    InvS_runSim _ (fun s h => InvS_stepRR quantum s hquant h) fuel _ h0
  have h5 : InvS (priority_nonpreemptive_run fuel ps) :=
    InvS_runSim _ (fun s h => InvS_stepNP _ s h) fuel _ h0
  have h6 : InvS (priority_preemptive_run fuel ps) :=
    InvS_runSim _ (fun s h => InvS_stepP _ s h) fuel _ h0
  have h7 : InvM (multilevel_queue_run quantum fuel ps) :=
    InvM_runM quantum hquant fuel _ (InvM_initM ps hv)
  intro res hres
  simp only [allPolicyRuns, List.mem_cons, List.not_mem_nil, or_false] at hres
  rcases hres with h | h | h | h | h | h | h
  all_goals subst h
  · exact metrics_pos_of_InvRecs h1
  · exact metrics_pos_of_InvRecs h2
  · exact metrics_pos_of_InvRecs h3
  · exact metrics_pos_of_InvRecs h4
  · exact metrics_pos_of_InvRecs h5
  · exact metrics_pos_of_InvRecs h6
  · exact metrics_pos_of_InvRecs h7

/-- Witness for C10 on a concrete one-process workload. -/
theorem c10_witness :
    (1 : Int) ≤ 2 ∧
    ValidW [{ pid := 0, arrival_time := 0, burst_time := 1, priority := 0,
              remaining_time := 0 }] ∧
    ∀ res ∈ allPolicyRuns 2 3
      [{ pid := 0, arrival_time := 0, burst_time := 1, priority := 0,
         remaining_time := 0 }],
      (∃ p ∈ res, p.completion_time.isSome) →
      0 < maxCompletion (res.filter (fun p => p.completion_time.isSome)) ∧
      (get_metrics res).isSome :=
  ⟨by decide, ⟨by decide, by decide⟩,
   c10_metric_divisions_well_defined 2 3 _ (by decide)
     ⟨by decide, by decide⟩⟩

/-! ### C5: Round Robin with a large quantum equals FCFS -/

lemma stepRR_eq_stepNP (Q : Int) (s : SimState) (h : InvS s)
    (hQ : ∀ p ∈ s.procs, p.burst_time ≤ Q) : stepRR Q s = stepNP none s := by
  have h1 : InvS (admitArrivals s) := InvS_admit h
  unfold stepRR stepNP
  dsimp only
  rw [show npQueue none (admitArrivals s) = (admitArrivals s).queue from rfl]
  rcases hq : (admitArrivals s).queue with _ | ⟨pid, rest⟩
  all_goals dsimp only
  · have hmem : pid ∈ (admitArrivals s).queue := by rw [hq]; simp
    obtain ⟨hrem1, hremb⟩ := queued_facts h1 hmem
    have hfmem : findP (admitArrivals s).procs pid ∈ (admitArrivals s).procs := by
      obtain ⟨-, hnd, -, -, hqpid, -⟩ := h1
      exact (findP_pid hnd (hqpid pid hmem)).2
    have hQ2 : (findP (admitArrivals s).procs pid).burst_time ≤ Q :=
      hQ _ hfmem
    have hmin : min Q (findP (admitArrivals s).procs pid).remaining_time =
        (findP (admitArrivals s).procs pid).remaining_time :=
      min_eq_right (by omega)
    rw [hmin, runToCompletion_eq_exec,
      execProc_eq_pos _ _ _ _ (sub_self _)]
    dsimp only
    simp

lemma burst_le_stepNP (Q : Int) (sk : Option (Process → Int)) (s : SimState)
    (h : InvS s) (hQ : ∀ p ∈ s.procs, p.burst_time ≤ Q) :
    ∀ p ∈ (stepNP sk s).procs, p.burst_time ≤ Q := by
  have h1 : InvS (admitArrivals s) := InvS_admit h
  unfold stepNP
  dsimp only
  rcases hq : npQueue sk (admitArrivals s) with _ | ⟨pid, rest⟩
  all_goals dsimp only
  · intro p hp
    exact hQ p hp
  · have hmem : pid ∈ (admitArrivals s).queue :=
      ((npQueue_perm sk (admitArrivals s)).mem_iff).mp (by rw [hq]; simp)
    have hfmem : findP (admitArrivals s).procs pid ∈ (admitArrivals s).procs := by
      obtain ⟨-, hnd, -, -, hqpid, -⟩ := h1
      exact (findP_pid hnd (hqpid pid hmem)).2
    intro p hp
    unfold runToCompletion at hp
    dsimp only at hp
    rcases mem_setP hp with ⟨hp2, -⟩ | ⟨hp2, -⟩
    · subst hp2
      exact hQ (findP (admitArrivals s).procs pid) hfmem
    · exact hQ p hp2

lemma rr_run_eq_fcfs_run (Q : Int) :
    ∀ (fuel : Nat) (s : SimState), InvS s →
    (∀ p ∈ s.procs, p.burst_time ≤ Q) →
    runSim (stepRR Q) fuel s = runSim (stepNP none) fuel s := by
  intro fuel
  induction fuel with
  | zero => intro s _ _; rfl
  | succ f ih =>
    intro s h hQ
    rw [runSim, runSim]
    by_cases hd : doneS s = true
    · rw [if_pos hd, if_pos hd]
    · rw [if_neg hd, if_neg hd, stepRR_eq_stepNP Q s h hQ]
      exact ih (stepNP none s) (InvS_stepNP none s h)
        (burst_le_stepNP Q none s h hQ)

/-- C5: on a valid workload, Round Robin with a quantum at least every
burst time runs identically to FCFS — the entire final states coincide,
and in particular every process has the same completion time under both
policies. -/
theorem c5_round_robin_degenerates_to_fcfs (Q : Int) (fuel : Nat)
    (ps : List Process) (hv : ValidW ps)
    (hQ : ∀ p ∈ ps, p.burst_time ≤ Q) :
    round_robin_run Q fuel ps = fcfs_run fuel ps ∧
    ∀ pid : Nat,
      (findP (round_robin_run Q fuel ps).procs pid).completion_time =
      (findP (fcfs_run fuel ps).procs pid).completion_time := by
  have heq : round_robin_run Q fuel ps = fcfs_run fuel ps := by
    unfold round_robin_run fcfs_run
    apply rr_run_eq_fcfs_run Q fuel _ (InvS_initState ps hv)
    intro p hp
    obtain ⟨q, hq, hpq⟩ := List.mem_map.mp hp
    subst hpq
    exact hQ q hq
  exact ⟨heq, fun pid => by rw [heq]⟩

/-- Witness for C5: a two-process workload with maximal burst 3 and
quantum 9. -/
theorem c5_witness :
    ValidW [{ pid := 0, arrival_time := 0, burst_time := 3, priority := 0,
              remaining_time := 0 },
            { pid := 1, arrival_time := 1, burst_time := 2, priority := 1,
              remaining_time := 0 }] ∧
    round_robin_run 9 12
      [{ pid := 0, arrival_time := 0, burst_time := 3, priority := 0,
         remaining_time := 0 },
       { pid := 1, arrival_time := 1, burst_time := 2, priority := 1,
         remaining_time := 0 }] =
      fcfs_run 12
      [{ pid := 0, arrival_time := 0, burst_time := 3, priority := 0,
         remaining_time := 0 },
       { pid := 1, arrival_time := 1, burst_time := 2, priority := 1,
         remaining_time := 0 }] :=
  ⟨⟨by decide, by decide⟩,
   (c5_round_robin_degenerates_to_fcfs 9 12 _ ⟨by decide, by decide⟩
     (by decide)).1⟩

/-! ### C6: tier mapping and tier stability of the multilevel queue -/

/-- Every queued process sits in the tier queue selected by `pyTier` from
its (never-changing) priority. -/
def TieredM (s : MlqState) : Prop :=
  ∀ pid : Nat,
    (pid ∈ s.q0 → pyTier (findP s.procs pid).priority = some 0) ∧
    (pid ∈ s.q1 → pyTier (findP s.procs pid).priority = some 1) ∧
    (pid ∈ s.q2 → pyTier (findP s.procs pid).priority = some 2)

lemma pyTier_cases (pr : Int) :
    (0 ≤ pr → pyTier pr = some (min (Int.fdiv pr 4) 2).toNat) ∧
    (-12 ≤ pr → pr < 0 →
      pyTier pr = some (min (Int.fdiv pr 4) 2 + 3).toNat) ∧
    (pr ≤ -13 → pyTier pr = none) := by
  unfold pyTier
  dsimp only
  rw [Int.fdiv_eq_ediv pr (by norm_num)]
  refine ⟨?_, ?_, ?_⟩
  · intro h
    have h4 : 0 ≤ min (pr / 4) 2 := by
      rw [min_def]
      split_ifs <;> omega
    rw [if_pos h4]
  · intro ha hb
    have h4 : ¬ 0 ≤ min (pr / 4) 2 := by
      rw [min_def]
      split_ifs <;> omega
    have h5 : -3 ≤ min (pr / 4) 2 := by
      rw [min_def]
      split_ifs <;> omega
    rw [if_neg h4, if_pos h5]
  · intro hc
    have h4 : ¬ 0 ≤ min (pr / 4) 2 := by
      rw [min_def]
      split_ifs <;> omega
    have h5 : ¬ -3 ≤ min (pr / 4) 2 := by
      rw [min_def]
      split_ifs <;> omega
    rw [if_neg h4, if_neg h5]

lemma pyTier_le_two {pr : Int} {n : Nat} (h : pyTier pr = some n) :
    n ≤ 2 := by
  unfold pyTier at h
  dsimp only at h
  have hi : min (Int.fdiv pr 4) 2 ≤ 2 := min_le_right _ _
  split_ifs at h with h1 h2
  · simp only [Option.some.injEq] at h
    omega
  · simp only [Option.some.injEq] at h
    omega

lemma admitM_tiers (t : Int) :
    ∀ (ps : List Process) (a b c a2 b2 c2 : List Nat),
    admitM t ps a b c = some (a2, b2, c2) →
    (∀ pid ∈ a2, pid ∈ a ∨ ∃ p ∈ ps, p.pid = pid ∧
      pyTier p.priority = some 0) ∧
    (∀ pid ∈ b2, pid ∈ b ∨ ∃ p ∈ ps, p.pid = pid ∧
      pyTier p.priority = some 1) ∧
    (∀ pid ∈ c2, pid ∈ c ∨ ∃ p ∈ ps, p.pid = pid ∧
      pyTier p.priority = some 2) := by
  intro ps
  induction ps with
  | nil =>
    intro a b c a2 b2 c2 h
    rw [admitM] at h
    simp only [Option.some.injEq, Prod.mk.injEq] at h
    obtain ⟨h1, h2, h3⟩ := h
    subst h1; subst h2; subst h3
    exact ⟨fun pid hp => Or.inl hp, fun pid hp => Or.inl hp,
      fun pid hp => Or.inl hp⟩
  | cons p ps ih =>
    intro a b c a2 b2 c2 h
    rw [admitM] at h
    by_cases hel : p.arrival_time ≤ t ∧ p.completion_time = none ∧
        p.pid ∉ a ∧ p.pid ∉ b ∧ p.pid ∉ c
    · rw [if_pos hel] at h
      rcases hpt : pyTier p.priority with _ | n
      · rw [hpt] at h
        simp at h
      · rw [hpt] at h
        match n, h with
        | 0, h =>
          obtain ⟨ha2, hb2, hc2⟩ := ih (a ++ [p.pid]) b c a2 b2 c2 h
          refine ⟨?_, ?_, ?_⟩
          · intro pid hpid
            rcases ha2 pid hpid with h2 | ⟨p2, hp2, hrest⟩
            · rcases List.mem_append.mp h2 with h3 | h3
              · exact Or.inl h3
              · have : pid = p.pid := by simpa using h3
                subst this
                exact Or.inr ⟨p, by simp, rfl, hpt⟩
            · exact Or.inr ⟨p2, by simp [hp2], hrest⟩
          · intro pid hpid
            rcases hb2 pid hpid with h2 | ⟨p2, hp2, hrest⟩
            · exact Or.inl h2
            · exact Or.inr ⟨p2, by simp [hp2], hrest⟩
          · intro pid hpid
            rcases hc2 pid hpid with h2 | ⟨p2, hp2, hrest⟩
            · exact Or.inl h2
            · exact Or.inr ⟨p2, by simp [hp2], hrest⟩
        | 1, h =>
          obtain ⟨ha2, hb2, hc2⟩ := ih a (b ++ [p.pid]) c a2 b2 c2 h
          refine ⟨?_, ?_, ?_⟩
          · intro pid hpid
            rcases ha2 pid hpid with h2 | ⟨p2, hp2, hrest⟩
            · exact Or.inl h2
            · exact Or.inr ⟨p2, by simp [hp2], hrest⟩
          · intro pid hpid
            rcases hb2 pid hpid with h2 | ⟨p2, hp2, hrest⟩
            · rcases List.mem_append.mp h2 with h3 | h3
              · exact Or.inl h3
              · have : pid = p.pid := by simpa using h3
                subst this
                exact Or.inr ⟨p, by simp, rfl, hpt⟩
            · exact Or.inr ⟨p2, by simp [hp2], hrest⟩
          · intro pid hpid
            rcases hc2 pid hpid with h2 | ⟨p2, hp2, hrest⟩
            · exact Or.inl h2
            · exact Or.inr ⟨p2, by simp [hp2], hrest⟩
        | Nat.succ (Nat.succ m), h =>
          have hm : m = 0 := by
            have := pyTier_le_two hpt
            omega
          subst hm
          obtain ⟨ha2, hb2, hc2⟩ := ih a b (c ++ [p.pid]) a2 b2 c2 h
          refine ⟨?_, ?_, ?_⟩
          · intro pid hpid
            rcases ha2 pid hpid with h2 | ⟨p2, hp2, hrest⟩
            · exact Or.inl h2
            · exact Or.inr ⟨p2, by simp [hp2], hrest⟩
          · intro pid hpid
            rcases hb2 pid hpid with h2 | ⟨p2, hp2, hrest⟩
            · exact Or.inl h2
            · exact Or.inr ⟨p2, by simp [hp2], hrest⟩
          · intro pid hpid
            rcases hc2 pid hpid with h2 | ⟨p2, hp2, hrest⟩
            · rcases List.mem_append.mp h2 with h3 | h3
              · exact Or.inl h3
              · have : pid = p.pid := by simpa using h3
                subst this
                exact Or.inr ⟨p, by simp, rfl, hpt⟩
            · exact Or.inr ⟨p2, by simp [hp2], hrest⟩
    · rw [if_neg hel] at h
      obtain ⟨ha2, hb2, hc2⟩ := ih a b c a2 b2 c2 h
      refine ⟨?_, ?_, ?_⟩
      · intro pid hpid
        rcases ha2 pid hpid with h2 | ⟨p2, hp2, hrest⟩
        · exact Or.inl h2
        · exact Or.inr ⟨p2, by simp [hp2], hrest⟩
      · intro pid hpid
        rcases hb2 pid hpid with h2 | ⟨p2, hp2, hrest⟩
        · exact Or.inl h2
        · exact Or.inr ⟨p2, by simp [hp2], hrest⟩
      · intro pid hpid
        rcases hc2 pid hpid with h2 | ⟨p2, hp2, hrest⟩
        · exact Or.inl h2
        · exact Or.inr ⟨p2, by simp [hp2], hrest⟩

lemma findP_setP_self {procs : List Process} {pid : Nat} {newP : Process}
    (hnew : newP.pid = pid) (hmem : pid ∈ pidsOf procs) :
    findP (setP procs pid newP) pid = newP := by
  induction procs with
  | nil => simp [pidsOf] at hmem
  | cons q qs ih =>
    by_cases hq : q.pid = pid
    · unfold setP findP
      rw [List.map_cons, if_pos hq]
      rw [List.find?_cons_of_pos _ (by simpa using hnew)]
    · have hmem2 : pid ∈ pidsOf qs := by
        simp only [pidsOf, List.map_cons, List.mem_cons] at hmem
        rcases hmem with h | h
        · exact absurd h.symm hq
        · exact h
      have := ih hmem2
      unfold setP findP at this ⊢
      rw [List.map_cons, if_neg hq]
      rw [List.find?_cons_of_neg _ (by simpa using hq)]
      exact this

lemma findP_setP_other {procs : List Process} {pid : Nat} {newP : Process}
    {x : Nat} (hnew : newP.pid = pid) (hx : x ≠ pid) :
    findP (setP procs pid newP) x = findP procs x := by
  induction procs with
  | nil => rfl
  | cons q qs ih =>
    by_cases hq : q.pid = pid
    · unfold setP findP at ih ⊢
      rw [List.map_cons, if_pos hq]
      rw [List.find?_cons_of_neg _ (by simp [hnew]; omega),
        List.find?_cons_of_neg _ (by simp [hq]; omega)]
      exact ih
    · unfold setP findP at ih ⊢
      rw [List.map_cons, if_neg hq]
      by_cases hqx : q.pid = x
      · rw [List.find?_cons_of_pos _ (by simpa using hqx),
          List.find?_cons_of_pos _ (by simpa using hqx)]
      · rw [List.find?_cons_of_neg _ (by simpa using hqx),
          List.find?_cons_of_neg _ (by simpa using hqx)]
        exact ih

lemma execProc_procs_shape (procs : List Process) (t : Int) (pid : Nat)
    (e : Int) :
    ∃ newP, (execProc procs t pid e).1 = setP procs pid newP ∧
      newP.pid = (findP procs pid).pid ∧
      newP.priority = (findP procs pid).priority := by
  unfold execProc
  dsimp only
  split
  · exact ⟨_, rfl, rfl, rfl⟩
  · exact ⟨_, rfl, rfl, rfl⟩

lemma TieredM_stepM (quantum : Int) (s : MlqState) (h : InvM s)
    (ht : TieredM s) : TieredM (stepM quantum s) := by
  unfold stepM
  by_cases hcr : s.crashed
  · rw [if_pos hcr]
    exact ht
  · rw [if_neg hcr]
    rcases hadm : admitM s.time s.procs s.q0 s.q1 s.q2 with _ | ⟨a, b, c⟩
    · exact ht
    · dsimp only
      have h2 : InvRecs s.procs (a ++ b ++ c) s.time :=
        InvRecs_admitM s.procs s.q0 s.q1 s.q2 a b c s.time h hadm
      obtain ⟨-, hnd, -, hqnd, hqpid, -⟩ := h2
      obtain ⟨hta, htb, htc⟩ :=
        admitM_tiers s.time s.procs s.q0 s.q1 s.q2 a b c hadm
      have hA : ∀ pid ∈ a, pyTier (findP s.procs pid).priority = some 0 := by
        intro pid hpid
        rcases hta pid hpid with h3 | ⟨p, hp, hpid2, hpt⟩
        · exact (ht pid).1 h3
        · subst hpid2
          rw [findP_mem_eq hnd hp]
          exact hpt
      have hB : ∀ pid ∈ b, pyTier (findP s.procs pid).priority = some 1 := by
        intro pid hpid
        rcases htb pid hpid with h3 | ⟨p, hp, hpid2, hpt⟩
        · exact (ht pid).2.1 h3
        · subst hpid2
          rw [findP_mem_eq hnd hp]
          exact hpt
      have hC : ∀ pid ∈ c, pyTier (findP s.procs pid).priority = some 2 := by
        intro pid hpid
        rcases htc pid hpid with h3 | ⟨p, hp, hpid2, hpt⟩
        · exact (ht pid).2.2 h3
        · subst hpid2
          rw [findP_mem_eq hnd hp]
          exact hpt
      rcases ha : a with _ | ⟨pid, rest⟩
      all_goals dsimp only
      · rcases hb : b with _ | ⟨pid, rest⟩
        all_goals dsimp only
        · rcases hc : c with _ | ⟨pid, rest⟩
          all_goals dsimp only
          · intro x
            refine ⟨fun hx => ?_, fun hx => ?_, fun hx => ?_⟩
            all_goals simp at hx
          · subst ha; subst hb; subst hc
            have hpidmem : pid ∈ pidsOf s.procs := hqpid pid (by simp)
            have hfpid : (findP s.procs pid).pid = pid :=
              (findP_pid hnd hpidmem).1
            obtain ⟨newP, hshape, hnpid, hnprio⟩ :=
              execProc_procs_shape s.procs s.time pid
                (min quantum (findP s.procs pid).remaining_time)
            rcases hex : execProc s.procs s.time pid
              (min quantum (findP s.procs pid).remaining_time) with
              ⟨procs2, t2, fin⟩
            rw [hex] at hshape
            dsimp only at hshape
            intro x
            refine ⟨fun hx => ?_, fun hx => ?_, fun hx => ?_⟩
            · simp at hx
            · simp at hx
            · have hxc : x ∈ (pid :: rest : List Nat) := by
                rcases fin with _ | _
                · simp only [if_neg Bool.false_ne_true] at hx
                  rcases List.mem_append.mp hx with h4 | h4
                  · exact List.mem_cons_of_mem _ h4
                  · simp only [List.mem_singleton] at h4
                    subst h4
                    simp
                · simp only [if_pos rfl] at hx
                  exact List.mem_cons_of_mem _ hx
              by_cases hxp : x = pid
              · subst hxp
                rw [hshape, findP_setP_self (hnpid.trans hfpid) hpidmem,
                  hnprio]
                exact hC x (by simp)
              · rw [hshape, findP_setP_other (hnpid.trans hfpid) hxp]
                exact hC x hxc
        · subst ha; subst hb
          have hpidmem : pid ∈ pidsOf s.procs := hqpid pid (by simp)
          have hfpid : (findP s.procs pid).pid = pid :=
            (findP_pid hnd hpidmem).1
          have hdisj : List.Disjoint (([] : List Nat) ++ pid :: rest) c :=
            (List.nodup_append.mp hqnd).2.2
          have hpidc : pid ∉ c := fun hq => hdisj (by simp) hq
          obtain ⟨newP, hshape, hnpid, hnprio⟩ :=
            execProc_procs_shape s.procs s.time pid
              (min quantum (findP s.procs pid).remaining_time)
          rcases hex : execProc s.procs s.time pid
            (min quantum (findP s.procs pid).remaining_time) with
            ⟨procs2, t2, fin⟩
          rw [hex] at hshape
          dsimp only at hshape
          intro x
          refine ⟨fun hx => ?_, fun hx => ?_, fun hx => ?_⟩
          · simp at hx
          · have hxb : x ∈ (pid :: rest : List Nat) := by
              rcases fin with _ | _
              · simp only [if_neg Bool.false_ne_true] at hx
                rcases List.mem_append.mp hx with h4 | h4
                · exact List.mem_cons_of_mem _ h4
                · simp only [List.mem_singleton] at h4
                  subst h4
                  simp
              · simp only [if_pos rfl] at hx
                exact List.mem_cons_of_mem _ hx
            by_cases hxp : x = pid
            · subst hxp
              rw [hshape, findP_setP_self (hnpid.trans hfpid) hpidmem,
                hnprio]
              exact hB x (by simp)
            · rw [hshape, findP_setP_other (hnpid.trans hfpid) hxp]
              exact hB x hxb
          · have hxp : x ≠ pid := fun hxp => hpidc (hxp ▸ hx)
            rw [hshape, findP_setP_other (hnpid.trans hfpid) hxp]
            exact hC x hx
      · subst ha
        have hpidmem : pid ∈ pidsOf s.procs := hqpid pid (by simp)
        have hfpid : (findP s.procs pid).pid = pid :=
          (findP_pid hnd hpidmem).1
        have hndl : ((pid :: rest) ++ b).Nodup :=
          List.Nodup.of_append_left hqnd
        have hdisj1 : List.Disjoint (pid :: rest) b :=
          (List.nodup_append.mp hndl).2.2
        have hdisj2 : List.Disjoint ((pid :: rest) ++ b) c :=
          (List.nodup_append.mp hqnd).2.2
        have hpidb : pid ∉ b := fun hq => hdisj1 (by simp) hq
        have hpidc : pid ∉ c := fun hq => hdisj2 (by simp) hq
        obtain ⟨newP, hshape, hnpid, hnprio⟩ :=
          execProc_procs_shape s.procs s.time pid
            (findP s.procs pid).remaining_time
        rcases hex : execProc s.procs s.time pid
          (findP s.procs pid).remaining_time with ⟨procs2, t2, fin⟩
        rw [hex] at hshape
        dsimp only at hshape
        intro x
        refine ⟨fun hx => ?_, fun hx => ?_, fun hx => ?_⟩
        · have hxa : x ∈ (pid :: rest : List Nat) := by
            rcases fin with _ | _
            · simp only [if_neg Bool.false_ne_true] at hx
              rcases List.mem_append.mp hx with h4 | h4
              · exact List.mem_cons_of_mem _ h4
              · simp only [List.mem_singleton] at h4
                subst h4
                simp
            · simp only [if_pos rfl] at hx
              exact List.mem_cons_of_mem _ hx
          by_cases hxp : x = pid
          · subst hxp
            rw [hshape, findP_setP_self (hnpid.trans hfpid) hpidmem, hnprio]
            exact hA x (by simp)
          · rw [hshape, findP_setP_other (hnpid.trans hfpid) hxp]
            exact hA x hxa
        · have hxp : x ≠ pid := fun hxp => hpidb (hxp ▸ hx)
          rw [hshape, findP_setP_other (hnpid.trans hfpid) hxp]
          exact hB x hx
        · have hxp : x ≠ pid := fun hxp => hpidc (hxp ▸ hx)
          rw [hshape, findP_setP_other (hnpid.trans hfpid) hxp]
          exact hC x hx

lemma TieredM_initM (ps : List Process) : TieredM (initM ps) := by
  intro pid
  refine ⟨fun hx => ?_, fun hx => ?_, fun hx => ?_⟩
  all_goals simp [initM] at hx

lemma TieredM_runM (quantum : Int) (hquant : 1 ≤ quantum) :
    ∀ (fuel : Nat) (s : MlqState), InvM s → TieredM s →
    TieredM (runM quantum fuel s) := by
  intro fuel
  induction fuel with
  | zero => intro s _ ht; exact ht
  | succ f ih =>
    intro s h ht
    rw [runM]
    by_cases hd : (doneM s || s.crashed) = true
    · rw [if_pos hd]; exact ht
    · rw [if_neg hd]
      exact ih _ (InvM_stepM quantum s hquant h) (TieredM_stepM quantum s h ht)

/-- C6 (amended): the tier a process is admitted to is `pyTier` of its
priority, which equals the claimed formula `min(priority div 4, 2)` exactly
when the priority is non-negative (for priorities in `-12 .. -1` Python's
negative indexing admits it to tier `min(priority div 4, 2) + 3`, and for
priorities at most `-13` admission raises IndexError); and once admitted a
process never changes tier: the admission scan only ever places a process
in the queue `pyTier` selects, every step of the loop — in particular every
re-enqueue after an expired quantum — preserves the property that each
queued process sits in the tier `pyTier` assigns to its (unchanged)
priority, and the whole run preserves it from the initial state. -/
theorem c6_tier_mapping_and_stability :
    (∀ pr : Int,
      (0 ≤ pr → pyTier pr = some (min (Int.fdiv pr 4) 2).toNat) ∧
      (-12 ≤ pr → pr < 0 →
        pyTier pr = some (min (Int.fdiv pr 4) 2 + 3).toNat) ∧
      (pr ≤ -13 → pyTier pr = none)) ∧
    (∀ (t : Int) (ps : List Process) (a b c a2 b2 c2 : List Nat),
      admitM t ps a b c = some (a2, b2, c2) →
      (∀ pid ∈ a2, pid ∈ a ∨ ∃ p ∈ ps, p.pid = pid ∧
        pyTier p.priority = some 0) ∧
      (∀ pid ∈ b2, pid ∈ b ∨ ∃ p ∈ ps, p.pid = pid ∧
        pyTier p.priority = some 1) ∧
      (∀ pid ∈ c2, pid ∈ c ∨ ∃ p ∈ ps, p.pid = pid ∧
        pyTier p.priority = some 2)) ∧
    (∀ (quantum : Int) (s : MlqState), InvM s → TieredM s →
      TieredM (stepM quantum s)) ∧
    (∀ (quantum : Int) (fuel : Nat) (ps : List Process), 1 ≤ quantum →
      ValidW ps → TieredM (multilevel_queue_run quantum fuel ps)) := by
  refine ⟨pyTier_cases, admitM_tiers, TieredM_stepM, ?_⟩
  intro quantum fuel ps hquant hv
  exact TieredM_runM quantum hquant fuel _ (InvM_initM ps hv)
    (TieredM_initM ps)

/-- Witness for C6 at concrete priorities and a concrete one-process
state. -/
theorem c6_witness :
    pyTier 5 = some (min (Int.fdiv 5 4) 2).toNat ∧
    pyTier (-1) = some (min (Int.fdiv (-1) 4) 2 + 3).toNat ∧
    pyTier (-13) = none ∧
    (∀ pid ∈ ([0] : List Nat), pid ∈ ([] : List Nat) ∨
      ∃ p ∈ ([{ pid := 0, arrival_time := 0, burst_time := 2, priority := 0,
                remaining_time := 2 }] : List Process), p.pid = pid ∧
        pyTier p.priority = some 0) ∧
    TieredM (multilevel_queue_run 2 3
      [{ pid := 0, arrival_time := 0, burst_time := 2, priority := 0,
         remaining_time := 0 }]) := by
  refine ⟨(c6_tier_mapping_and_stability.1 5).1 (by decide),
    (c6_tier_mapping_and_stability.1 (-1)).2.1 (by decide) (by decide),
    (c6_tier_mapping_and_stability.1 (-13)).2.2 (by decide), ?_, ?_⟩
  · exact (c6_tier_mapping_and_stability.2.1 0
      [{ pid := 0, arrival_time := 0, burst_time := 2, priority := 0,
         remaining_time := 2 }] [] [] [] [0] [] [] (by decide)).1
  · exact c6_tier_mapping_and_stability.2.2.2 2 3
      [{ pid := 0, arrival_time := 0, burst_time := 2, priority := 0,
         remaining_time := 0 }] (by decide) ⟨by decide, by decide⟩
